import Mathlib

/-!
Verification of the mqtt2influxdb mapping/extraction engine

Shallow embedding of the extraction core of `src/main.rs` / `src/config.rs`
(the two files contain the same core definitions; `config.rs` is the public
module variant).  Rust machine values are modelled as follows:

* byte slices `&[u8]` become `List Nat` (each element < 256 where it matters);
* Rust `String` / `&str` become Lean `String`;
* `serde_json::Value` becomes the inductive `Json` below; `serde_json`'s
  number type (internally u64 / i64 / f64) is modelled by `JNum`: an integer
  literal arm and a decimal literal arm (mantissa and number of decimal
  places).  `f64` arithmetic never happens in the program — numbers are only
  carried from the parser to the sink — so the denoted value is modelled as
  an exact rational (`ℚ`) rather than a floating-point number;
* `influxdb_rs::Value` becomes `DBValue`, restricted to the three variants
  the program constructs (`Boolean`, `Float`, `String`);
* panics (`unwrap` on a decode failure, `unimplemented!()` on a JSON null)
  are modelled by the `Except` error channel `ExtractPanic`: the Rust
  function type `extract(&self, &[u8], Point) -> Point` has no error channel,
  so an `ExtractPanic.error` outcome corresponds to a process-terminating
  panic, not to a value returned to the caller.
-/

namespace Mqtt2Influx

/-- serde_json's number type.  `intg i` is an integer literal (serde's
`u64`/`i64` arms); `frac m e` is a decimal literal with mantissa `m` and
`e ≥ 1` decimal places, denoting `m / 10^e` (serde's `f64` arm, with the
denoted value kept exact). -/
inductive JNum where
  | intg : Int → JNum
  | frac : Int → Nat → JNum
deriving DecidableEq, Repr

/-- `serde_json::Number::as_f64`, with the result modelled as an exact
rational. -/
def JNum.as_f64 : JNum → ℚ
  | .intg i => (i : ℚ)
  | .frac m e => (m : ℚ) / (10 : ℚ) ^ e

/-- `serde_json::Value`.  Objects are association lists; `serde_json`'s
default map is a `BTreeMap`, so objects produced by parsing have strictly
sorted, duplicate-free keys (captured later by `Json.Canonical`). -/
inductive Json where
  | null : Json
  | bool : Bool → Json
  | num : JNum → Json
  | str : String → Json
  | arr : List Json → Json
  | obj : List (String × Json) → Json

/-- Induction principle for the nested inductive `Json`, giving member-wise
hypotheses for arrays and objects. -/
theorem Json.ind (P : Json → Prop)
    (hnull : P .null) (hbool : ∀ b, P (.bool b)) (hnum : ∀ n, P (.num n))
    (hstr : ∀ s, P (.str s))
    (harr : ∀ l, (∀ x ∈ l, P x) → P (.arr l))
    (hobj : ∀ l, (∀ p ∈ l, P p.2) → P (.obj l)) :
    ∀ v, P v := by
  have key : ∀ (n : Nat) (v : Json), sizeOf v ≤ n → P v := by
    intro n
    induction n with
    | zero =>
      intro v hv
      cases v <;> simp_all
    | succ n ih =>
      intro v hv
      cases v with
      | null => exact hnull
      | bool b => exact hbool b
      | num m => exact hnum m
      | str s => exact hstr s
      | arr l =>
        refine harr l (fun x hx => ih x ?_)
        have h1 := List.sizeOf_lt_of_mem hx
        simp only [Json.arr.sizeOf_spec] at hv
        omega
      | obj l =>
        refine hobj l (fun p hp => ih p.2 ?_)
        have h1 := List.sizeOf_lt_of_mem hp
        have h2 : sizeOf p.2 < sizeOf p := by
          obtain ⟨a, b⟩ := p
          simp
        simp only [Json.obj.sizeOf_spec] at hv
        omega
  exact fun v => key (sizeOf v) v le_rfl

mutual

/-- Boolean equality on `Json`. -/
def Json.beq : Json → Json → Bool
  | .null, .null => true
  | .bool a, .bool b => a == b
  | .num a, .num b => a == b
  | .str a, .str b => a == b
  | .arr a, .arr b => Json.beqList a b
  | .obj a, .obj b => Json.beqObj a b
  | _, _ => false

/-- Boolean equality on lists of `Json`. -/
def Json.beqList : List Json → List Json → Bool
  | [], [] => true
  | a :: as, b :: bs => Json.beq a b && Json.beqList as bs
  | _, _ => false

/-- Boolean equality on object entry lists. -/
def Json.beqObj : List (String × Json) → List (String × Json) → Bool
  | [], [] => true
  | (k, x) :: xs, (l, y) :: ys => k == l && Json.beq x y && Json.beqObj xs ys
  | _, _ => false

end

theorem Json.beq_iff : ∀ a b : Json, Json.beq a b = true ↔ a = b := by
  intro a
  induction a using Json.ind with
  | hnull => intro b; cases b <;> simp [Json.beq]
  | hbool x => intro b; cases b <;> simp [Json.beq]
  | hnum x => intro b; cases b <;> simp [Json.beq]
  | hstr x => intro b; cases b <;> simp [Json.beq]
  | harr l ihl =>
    intro b
    cases b with
    | arr m =>
      simp only [Json.beq, Json.arr.injEq]
      induction l generalizing m with
      | nil => cases m <;> simp [Json.beqList]
      | cons x xs ihx =>
        cases m with
        | nil => simp [Json.beqList]
        | cons y ys =>
          have hx := ihl x (by simp)
          have hxs := ihx (fun z hz => ihl z (by simp [hz])) ys
          simp [Json.beqList, hx, hxs]
    | null => simp [Json.beq]
    | bool x => simp [Json.beq]
    | num x => simp [Json.beq]
    | str x => simp [Json.beq]
    | obj m => simp [Json.beq]
  | hobj l ihl =>
    intro b
    cases b with
    | obj m =>
      simp only [Json.beq, Json.obj.injEq]
      induction l generalizing m with
      | nil => cases m <;> simp [Json.beqObj]
      | cons x xs ihx =>
        cases m with
        | nil => simp [Json.beqObj]
        | cons y ys =>
          obtain ⟨k, v⟩ := x
          obtain ⟨k', w⟩ := y
          have hx := ihl (k, v) (by simp)
          have hxs := ihx (fun z hz => ihl z (by simp [hz])) ys
          simp only at hx
          simp [Json.beqObj, hx, hxs, and_assoc]
    | null => simp [Json.beq]
    | bool x => simp [Json.beq]
    | num x => simp [Json.beq]
    | str x => simp [Json.beq]
    | arr m => simp [Json.beq]

instance : DecidableEq Json :=
  fun a b => decidable_of_iff (Json.beq a b = true) (Json.beq_iff a b)

/-- `BTreeMap::get`: look an exact key up in an object's entry list. -/
def objGet (l : List (String × Json)) (k : String) : Option Json :=
  (l.find? (fun p => p.1 == k)).map Prod.snd

/-- Rust `str::parse::<usize>()` on a path segment: an optional leading `+`,
then one or more ASCII digits.  (Overflow of `usize` is not modelled: for the
one call site — an array index — an overflowed parse and an out-of-range
index lead to the same "leave the value unchanged" outcome.) -/
def parseUsize (s : String) : Option Nat :=
  let ds := match s.data with
    | '+' :: rest => rest
    | other => other
  if ds ≠ [] ∧ ds.all Char.isDigit then
    some (ds.foldl (fun a c => 10 * a + (c.toNat - 48)) 0)
  else
    none

/-- One iteration of the path-resolution loop body in `Fields::extract`
(`src/main.rs` lines 121-138): on an array, descend when the segment parses
as an in-range index, otherwise `continue` with the value unchanged; on an
object, descend when the key is present, otherwise `continue`; on any other
value, `continue`. -/
def resolveStep (v : Json) (p : String) : Json :=
  match v with
  | .arr a =>
    match parseUsize p with
    | some i => a[i]?.getD v
    | none => v
  | .obj o => (objGet o p).getD v
  | _ => v

/-- The full path-resolution loop: a fold of `resolveStep` over the
segments, starting from the parsed root. -/
def resolve (root : Json) (path : List String) : Json :=
  path.foldl resolveStep root

/-- Rust `str::split(sep)` on the character level: split into the (always
nonempty) list of separator-free runs — splitting the empty string yields
`[""]`, one empty segment. -/
def splitOnChar (sep : Char) : List Char → List (List Char)
  | [] => [[]]
  | c :: rest =>
    let r := splitOnChar sep rest
    if c = sep then [] :: r
    else (c :: r.headD []) :: r.tail

/-- `JsonField::src_path_parts`: Rust `split('.')`. -/
def srcPathParts (s : String) : List String :=
  (splitOnChar '.' s.data).map String.mk

/-- `influxdb_rs::Value`, restricted to the variants the program builds. -/
inductive DBValue where
  | Boolean : Bool → DBValue
  | Float : ℚ → DBValue
  | String : String → DBValue
deriving DecidableEq, Repr

/-- `DstVariant` (`src/main.rs` lines 44-48). -/
inductive DstVariant where
  | Field : DstVariant
  | Tag : DstVariant
deriving DecidableEq, Repr

/-- Insert-or-overwrite into an association list, keeping the first
occurrence's position on overwrite.  Modelled from the spec: the maps inside
`influxdb_rs::Point` are external to this repository; §4.5 specifies
insert/overwrite with last-write-wins. -/
def upsert (m : List (String × DBValue)) (k : String) (v : DBValue) :
    List (String × DBValue) :=
  match m with
  | [] => [(k, v)]
  | (k', v') :: rest =>
    if k' = k then (k, v) :: rest else (k', v') :: upsert rest k v

/-- `influxdb_rs::Point`, modelled from the spec (§3 Record): a name plus
field and tag mappings. -/
structure Point where
  name : String
  fields : List (String × DBValue)
  tags : List (String × DBValue)
deriving DecidableEq, Repr

/-- `Point::new` — modelled from the spec: a fresh record with empty field
and tag maps. -/
def Point.new (name : String) : Point :=
  ⟨name, [], []⟩

/-- `Point::add_field` — modelled from the spec (§4.5): insert/overwrite
`fields[name] = value`. -/
def Point.add_field (p : Point) (name : String) (value : DBValue) : Point :=
  { p with fields := upsert p.fields name value }

/-- `Point::add_tag` — modelled from the spec (§4.5): insert/overwrite
`tags[name] = value`. -/
def Point.add_tag (p : Point) (name : String) (value : DBValue) : Point :=
  { p with tags := upsert p.tags name value }

/-- `DstVariant::write_to` (`src/main.rs` lines 56-63). -/
def DstVariant.write_to (dv : DstVariant) (name : String) (value : DBValue)
    (point : Point) : Point :=
  match dv with
  | .Field => point.add_field name value
  | .Tag => point.add_tag name value

/-- A UTF-8 continuation byte. -/
def isCont (b : Nat) : Bool := 0x80 ≤ b ∧ b ≤ 0xBF

/-- Valid range of the second byte of a multi-byte UTF-8 sequence, given the
leading byte (tightened ranges for `E0`/`ED`/`F0`/`F4` exclude overlong
encodings, surrogates and codepoints above U+10FFFF). -/
def cont2ok (b1 b2 : Nat) : Bool :=
  if b1 = 0xE0 then 0xA0 ≤ b2 ∧ b2 ≤ 0xBF
  else if b1 = 0xED then 0x80 ≤ b2 ∧ b2 ≤ 0x9F
  else if b1 = 0xF0 then 0x90 ≤ b2 ∧ b2 ≤ 0xBF
  else if b1 = 0xF4 then 0x80 ≤ b2 ∧ b2 ≤ 0x8F
  else isCont b2

/-- Modelled from the spec: `std::str::from_utf8` (§4.4 "decode `payload` as
UTF-8 text") is external standard-library code; this is the strict UTF-8
decoding it performs, rejecting overlong forms, surrogates and values above
U+10FFFF. -/
def utf8Decode : List Nat → Option (List Char)
  | [] => some []
  | b1 :: rest =>
    if b1 ≤ 0x7F then
      (utf8Decode rest).map (fun cs => Char.ofNat b1 :: cs)
    else if 0xC2 ≤ b1 ∧ b1 ≤ 0xDF then
      match rest with
      | b2 :: r =>
        if isCont b2 then
          (utf8Decode r).map (fun cs => Char.ofNat ((b1 - 0xC0) * 64 + (b2 - 0x80)) :: cs)
        else none
      | [] => none
    else if 0xE0 ≤ b1 ∧ b1 ≤ 0xEF then
      match rest with
      | b2 :: b3 :: r =>
        if cont2ok b1 b2 && isCont b3 then
          (utf8Decode r).map
            (fun cs => Char.ofNat ((b1 - 0xE0) * 4096 + (b2 - 0x80) * 64 + (b3 - 0x80)) :: cs)
        else none
      | _ => none
    else if 0xF0 ≤ b1 ∧ b1 ≤ 0xF4 then
      match rest with
      | b2 :: b3 :: b4 :: r =>
        if cont2ok b1 b2 && isCont b3 && isCont b4 then
          (utf8Decode r).map
            (fun cs => Char.ofNat
              ((b1 - 0xF0) * 262144 + (b2 - 0x80) * 4096 + (b3 - 0x80) * 64 + (b4 - 0x80)) :: cs)
        else none
      | _ => none
    else none

/-- Lexicographic comparison of character lists by codepoint.  For the keys
of a `BTreeMap<String, _>` this coincides with Rust's byte-wise `String`
order, since UTF-8 preserves codepoint order. -/
def ltChars : List Char → List Char → Bool
  | [], [] => false
  | [], _ :: _ => true
  | _ :: _, [] => false
  | a :: as, b :: bs =>
    if a.toNat < b.toNat then true
    else if b.toNat < a.toNat then false
    else ltChars as bs

/-- Rust `String` ordering (byte-wise, equivalently codepoint-wise). -/
def ltStr (a b : String) : Bool := ltChars a.data b.data

/-- Modelled from the spec: `BTreeMap::insert` for the object maps of
`serde_json` — keep entries sorted by key, replacing an existing entry for
an equal key. -/
def insertKey : List (String × Json) → String → Json → List (String × Json)
  | [], k, v => [(k, v)]
  | (k', v') :: rest, k, v =>
    if ltStr k k' then (k, v) :: (k', v') :: rest
    else if k = k' then (k, v) :: rest
    else (k', v') :: insertKey rest k v

/-- Build a `serde_json` object map by inserting the parsed key/value pairs
in encounter order (a later duplicate key overwrites an earlier one). -/
def objInsertAll (ps : List (String × Json)) : List (String × Json) :=
  ps.foldl (fun m p => insertKey m p.1 p.2) []

/-- Decimal digits of `n`, most significant first, with a fuel argument for
structural recursion (`n` itself is always enough fuel). -/
def charsOfNatAux : Nat → Nat → List Char
  | 0, _ => []
  | fuel + 1, n => if n = 0 then [] else charsOfNatAux fuel (n / 10) ++ [Nat.digitChar (n % 10)]

/-- Decimal digits of `n`, most significant first. -/
def charsOfNat (n : Nat) : List Char :=
  if n = 0 then ['0'] else charsOfNatAux n n

/-- Decimal rendering of an integer, `-` prefix when negative. -/
def charsOfInt (i : Int) : List Char :=
  if i < 0 then '-' :: charsOfNat i.natAbs else charsOfNat i.natAbs

/-- Exactly `e` decimal digits of `n` (mod `10^e`), most significant first,
zero-padded on the left. -/
def padDigits : Nat → Nat → List Char
  | 0, _ => []
  | e + 1, n => padDigits e (n / 10) ++ [Nat.digitChar (n % 10)]

/-- Modelled from the spec: the number rendering of `serde_json::to_string`
(§4.3 "canonical JSON re-encoding").  An integer literal prints as a plain
decimal; a decimal literal with `e` places prints its integer part, `.`, and
`e` fraction digits (so an integral `f64` prints with a single `.0`, as ryu
does). -/
def encodeNum : JNum → List Char
  | .intg i => charsOfInt i
  | .frac m e =>
    (if m < 0 then ['-'] else []) ++
      charsOfNat (m.natAbs / 10 ^ e) ++ '.' :: padDigits e (m.natAbs % 10 ^ e)

/-- Modelled from the spec: `serde_json`'s string escaping — `"` and `\` get
a backslash, the control characters BS/TAB/LF/FF/CR use their short escapes,
other control characters use `\u00XX`, and everything else is verbatim. -/
def escapeChar (c : Char) : List Char :=
  if c = '"' then ['\\', '"']
  else if c = '\\' then ['\\', '\\']
  else if 0x20 ≤ c.toNat then [c]
  else if c.toNat = 8 then ['\\', 'b']
  else if c.toNat = 9 then ['\\', 't']
  else if c.toNat = 10 then ['\\', 'n']
  else if c.toNat = 12 then ['\\', 'f']
  else if c.toNat = 13 then ['\\', 'r']
  else ['\\', 'u', '0', '0', Nat.digitChar (c.toNat / 16), Nat.digitChar (c.toNat % 16)]

/-- A JSON string literal: quoted, with each character escaped. -/
def encodeString (s : String) : List Char :=
  '"' :: (s.data.map escapeChar).flatten ++ ['"']

mutual

/-- Modelled from the spec: `serde_json::to_string` (§4.3 "canonical JSON
re-encoding"), compact form — no whitespace, `,` and `:` separators,
object entries in stored (sorted) order. -/
def encodeVal : Json → List Char
  | .null => "null".data
  | .bool true => "true".data
  | .bool false => "false".data
  | .num n => encodeNum n
  | .str s => encodeString s
  | .arr l => '[' :: encodeArrElems l ++ [']']
  | .obj l => '{' :: encodeObjElems l ++ ['}']

/-- Comma-separated encodings of array elements. -/
def encodeArrElems : List Json → List Char
  | [] => []
  | [x] => encodeVal x
  | x :: y :: xs => encodeVal x ++ ',' :: encodeArrElems (y :: xs)

/-- Comma-separated `"key":value` encodings of object entries. -/
def encodeObjElems : List (String × Json) → List Char
  | [] => []
  | [(k, v)] => encodeString k ++ ':' :: encodeVal v
  | (k, v) :: p :: xs => encodeString k ++ ':' :: encodeVal v ++ ',' :: encodeObjElems (p :: xs)

end

/-- JSON whitespace (space, tab, line feed, carriage return). -/
def isWs (c : Char) : Bool := c = ' ' || c = '\t' || c = '\n' || c = '\r'

/-- Drop leading JSON whitespace. -/
def skipWs (l : List Char) : List Char := l.dropWhile isWs

/-- Value of one hexadecimal digit. -/
def hexVal (c : Char) : Option Nat :=
  if c.isDigit then some (c.toNat - 48)
  else if 'a' ≤ c && c ≤ 'f' then some (c.toNat - 87)
  else if 'A' ≤ c && c ≤ 'F' then some (c.toNat - 55)
  else none

/-- Value of a four-hex-digit escape. -/
def hex4 (a b c d : Char) : Option Nat := do
  let x ← hexVal a
  let y ← hexVal b
  let z ← hexVal c
  let w ← hexVal d
  pure (((x * 16 + y) * 16 + z) * 16 + w)

/-- Parse the body of a JSON string literal (after the opening quote) up to
and including the closing quote, handling escape sequences and rejecting raw
control characters.  (A `\\u` escape naming a surrogate half is rejected;
`serde_json` would combine a valid surrogate pair — a corner this model
leaves out, and which the encoder never produces.) -/
def parseStringBody : List Char → Option (List Char × List Char)
  | [] => none
  | '"' :: rest => some ([], rest)
  | '\\' :: rest =>
    match rest with
    | '"' :: r => (parseStringBody r).map (fun p => ('"' :: p.1, p.2))
    | '\\' :: r => (parseStringBody r).map (fun p => ('\\' :: p.1, p.2))
    | '/' :: r => (parseStringBody r).map (fun p => ('/' :: p.1, p.2))
    | 'b' :: r => (parseStringBody r).map (fun p => (Char.ofNat 8 :: p.1, p.2))
    | 'f' :: r => (parseStringBody r).map (fun p => (Char.ofNat 12 :: p.1, p.2))
    | 'n' :: r => (parseStringBody r).map (fun p => ('\n' :: p.1, p.2))
    | 'r' :: r => (parseStringBody r).map (fun p => (Char.ofNat 13 :: p.1, p.2))
    | 't' :: r => (parseStringBody r).map (fun p => ('\t' :: p.1, p.2))
    | 'u' :: h1 :: h2 :: h3 :: h4 :: r =>
      match hex4 h1 h2 h3 h4 with
      | some cp =>
        if 0xD800 ≤ cp ∧ cp ≤ 0xDFFF then none
        else (parseStringBody r).map (fun p => (Char.ofNat cp :: p.1, p.2))
      | none => none
    | _ => none
  | c :: rest =>
    if 0x20 ≤ c.toNat then (parseStringBody rest).map (fun p => (c :: p.1, p.2))
    else none

/-- Value of one decimal digit character. -/
def digitVal (c : Char) : Nat := c.toNat - 48

/-- Value of a most-significant-first digit string. -/
def digitsVal (l : List Char) : Nat := l.foldl (fun a c => 10 * a + digitVal c) 0

/-- Parse the integer part of a JSON number: `0` alone, or a nonzero digit
followed by more digits (JSON forbids leading zeros). -/
def parseIntDigits : List Char → Option (Nat × List Char)
  | '0' :: rest => some (0, rest)
  | l =>
    let ds := l.takeWhile Char.isDigit
    if ds = [] then none
    else some (digitsVal ds, l.dropWhile Char.isDigit)

/-- Assemble a parsed number literal into a `JNum`.  A literal without `.`
or exponent is an integer; any other literal is `serde_json`'s `f64` arm,
normalised here into mantissa/decimal-places form (an integral value gets
one decimal place, matching how ryu prints an integral `f64` with `.0`). -/
def mkNum (neg : Bool) (ip fv fc : Nat) (isFloat : Bool) (x : Int) : JNum :=
  if isFloat then
    let a : Nat := ip * 10 ^ fc + fv
    let m0 : Int := if neg then -(a : Int) else (a : Int)
    let s : Int := (fc : Int) - x
    if s ≤ 0 then .frac (m0 * 10 ^ (-s).toNat * 10) 1
    else .frac m0 s.toNat
  else .intg (if neg then -(ip : Int) else (ip : Int))

/-- Parse the optional exponent and finish the number. -/
def finishNumExp (neg : Bool) (ip fv fc : Nat) (hadDot : Bool) (r : List Char) :
    Option (JNum × List Char) :=
  match r with
  | 'e' :: r1 | 'E' :: r1 =>
    let (xneg, r2) := match r1 with
      | '-' :: rr => (true, rr)
      | '+' :: rr => (false, rr)
      | rr => (false, rr)
    let ds := r2.takeWhile Char.isDigit
    if ds = [] then none
    else
      let x : Int := if xneg then -(digitsVal ds : Int) else (digitsVal ds : Int)
      some (mkNum neg ip fv fc true x, r2.dropWhile Char.isDigit)
  | _ => some (mkNum neg ip fv fc hadDot 0, r)

/-- Parse the optional fraction part (then the exponent) of a number
literal, after the integer part. -/
def parseNumTail (neg : Bool) (ip : Nat) (r1 : List Char) : Option (JNum × List Char) :=
  match r1 with
  | '.' :: r2 =>
    let ds := r2.takeWhile Char.isDigit
    if ds = [] then none
    else finishNumExp neg ip (digitsVal ds) ds.length true (r2.dropWhile Char.isDigit)
  | _ => finishNumExp neg ip 0 0 false r1

/-- Parse the digits of a JSON number literal after the optional sign. -/
def parseNumCore (neg : Bool) (l1 : List Char) : Option (JNum × List Char) :=
  match parseIntDigits l1 with
  | none => none
  | some (ip, r1) => parseNumTail neg ip r1

/-- Parse a JSON number literal. -/
def parseNum : List Char → Option (JNum × List Char)
  | '-' :: l1 => parseNumCore true l1
  | l => parseNumCore false l

mutual

/-- Modelled from the spec: `serde_json::from_slice`'s grammar (§4.4 "parse
`payload` as a JSON document") — recursive-descent over characters, with a
fuel parameter bounding the recursion depth. -/
def parseVal : Nat → List Char → Option (Json × List Char)
  | 0, _ => none
  | fuel + 1, l =>
    match skipWs l with
    | [] => none
    | c :: r =>
      if c = 'n' then
        match r with
        | 'u' :: 'l' :: 'l' :: r2 => some (.null, r2)
        | _ => none
      else if c = 't' then
        match r with
        | 'r' :: 'u' :: 'e' :: r2 => some (.bool true, r2)
        | _ => none
      else if c = 'f' then
        match r with
        | 'a' :: 'l' :: 's' :: 'e' :: r2 => some (.bool false, r2)
        | _ => none
      else if c = '"' then
        match parseStringBody r with
        | some (cs, r2) => some (.str (String.mk cs), r2)
        | none => none
      else if c = '[' then
        match skipWs r with
        | ']' :: r2 => some (.arr [], r2)
        | r2 =>
          match parseArrItems fuel r2 with
          | some (vs, r3) => some (.arr vs, r3)
          | none => none
      else if c = '{' then
        match skipWs r with
        | '}' :: r2 => some (.obj [], r2)
        | r2 =>
          match parseObjItems fuel r2 with
          | some (ps, r3) => some (.obj (objInsertAll ps), r3)
          | none => none
      else
        match parseNum (c :: r) with
        | some (n, r2) => some (.num n, r2)
        | none => none

/-- Array elements: value, then `,` and more elements or the closing `]`. -/
def parseArrItems : Nat → List Char → Option (List Json × List Char)
  | 0, _ => none
  | fuel + 1, l =>
    match parseVal fuel l with
    | some (v, r) =>
      match skipWs r with
      | ',' :: r2 =>
        match parseArrItems fuel r2 with
        | some (vs, r3) => some (v :: vs, r3)
        | none => none
      | ']' :: r2 => some ([v], r2)
      | _ => none
    | none => none

/-- Object entries: `"key" : value`, then `,` and more entries or the
closing brace, returned in encounter order. -/
def parseObjItems : Nat → List Char → Option (List (String × Json) × List Char)
  | 0, _ => none
  | fuel + 1, l =>
    match skipWs l with
    | '"' :: r =>
      match parseStringBody r with
      | some (kcs, r2) =>
        match skipWs r2 with
        | ':' :: r3 =>
          match parseVal fuel r3 with
          | some (v, r4) =>
            match skipWs r4 with
            | ',' :: r5 =>
              match parseObjItems fuel r5 with
              | some (ps, r6) => some ((String.mk kcs, v) :: ps, r6)
              | none => none
            | '}' :: r5 => some ([(String.mk kcs, v)], r5)
            | _ => none
          | none => none
        | _ => none
      | none => none
    | _ => none

end

/-- Top-level parse of a character sequence: a single JSON value, with only
whitespace allowed after it (`serde_json::from_slice` consumes the whole
input).  Fuel `length + 1` suffices because every level of value nesting
consumes at least one character. -/
def parseJsonChars (l : List Char) : Option Json :=
  match parseVal (l.length + 1) l with
  | some (v, r) => if skipWs r = [] then some v else none
  | none => none

/-- `serde_json::from_slice::<Value>`: UTF-8 decode, then parse. -/
def parseJsonBytes (bytes : List Nat) : Option Json :=
  (utf8Decode bytes).bind parseJsonChars

/-- A number in the form the parser produces: a decimal literal always has
at least one decimal place. -/
def canonNum : JNum → Bool
  | .intg _ => true
  | .frac _ e => 1 ≤ e

mutual

/-- A value in the form `serde_json` parsing produces (the invariant of the
Rust `Value` type that the plain Lean lists do not enforce): object entry
lists are strictly sorted by key — `BTreeMap` iteration order — and decimal
literals carry at least one decimal place. -/
def Json.Canonical : Json → Bool
  | .null => true
  | .bool _ => true
  | .num n => canonNum n
  | .str _ => true
  | .arr l => Json.CanonicalList l
  | .obj l => Json.CanonicalObj l

/-- All array elements canonical. -/
def Json.CanonicalList : List Json → Bool
  | [] => true
  | x :: xs => Json.Canonical x && Json.CanonicalList xs

/-- All object values canonical, and keys strictly ascending. -/
def Json.CanonicalObj : List (String × Json) → Bool
  | [] => true
  | [(_, v)] => Json.Canonical v
  | (k, v) :: q :: xs =>
    Json.Canonical v && ltStr k q.1 && Json.CanonicalObj (q :: xs)

end

/-- Input at which a number literal certainly ends: empty, or a head that
can extend neither the digits nor the fraction nor the exponent. -/
def numStop : List Char → Bool
  | [] => true
  | c :: _ => !(c.isDigit || c = '.' || c = 'e' || c = 'E')

mutual

/-- Recursion-depth bound of `parseVal` on the encoding of a value. -/
def jfuel : Json → Nat
  | .arr l => 1 + jfuelItems l
  | .obj l => 1 + jfuelEntries l
  | _ => 1

/-- Recursion-depth bound of `parseArrItems` on encoded elements. -/
def jfuelItems : List Json → Nat
  | [] => 0
  | x :: xs => 1 + jfuel x + jfuelItems xs

/-- Recursion-depth bound of `parseObjItems` on encoded entries. -/
def jfuelEntries : List (String × Json) → Nat
  | [] => 0
  | p :: xs => 1 + jfuel p.2 + jfuelEntries xs

end

/-- `JsonField` (`src/main.rs` lines 65-71). -/
structure JsonField where
  src_path : String
  dst_variant : DstVariant
  dst_name : Option String
deriving DecidableEq, Repr

/-- `JsonField::src_path_parts` (`src/main.rs` lines 73-77). -/
def JsonField.src_path_parts (f : JsonField) : List String :=
  srcPathParts f.src_path

/-- `Fields` (`src/main.rs` lines 79-90). -/
inductive Fields where
  | SingleText (dst_variant : DstVariant) (dst_name : String) : Fields
  | Json (fields : List JsonField) : Fields

/-- The panic outcomes of `Fields::extract`.  The Rust signature
`extract(&self, &[u8], Point) -> Point` has no error channel: an `error`
here is a process-terminating panic, not a value the caller sees. -/
inductive ExtractPanic where
  | payloadDecode : ExtractPanic
  | unsupportedValue : ExtractPanic
deriving DecidableEq, Repr

instance {ε α : Type} [DecidableEq ε] [DecidableEq α] : DecidableEq (Except ε α) :=
  fun a b =>
    match a, b with
    | .error e, .error f =>
      if h : e = f then isTrue (by rw [h]) else isFalse (by intro hh; cases hh; exact h rfl)
    | .ok x, .ok y =>
      if h : x = y then isTrue (by rw [h]) else isFalse (by intro hh; cases hh; exact h rfl)
    | .error _, .ok _ => isFalse (by intro hh; cases hh)
    | .ok _, .error _ => isFalse (by intro hh; cases hh)

/-- `json_to_influxdb` (`src/main.rs` lines 92-101).  `Value::Null` hits
`unimplemented!()`, a panic, modelled as the error case.  The other unwraps
in the source body never fire: `Number::as_f64` is total on `serde_json`
numbers and `serde_json::to_string` is total on `Value`.  `to_string` on the
borrowed `Vec` / `Map` produces the same characters as on the wrapping
`Value`, hence `encodeVal` applied to the whole value. -/
def json_to_influxdb : Json → Except Unit DBValue
  | .null => .error ()
  | .bool b => .ok (.Boolean b)
  | .num n => .ok (.Float n.as_f64)
  | .str s => .ok (.String s)
  | .arr a => .ok (.String (String.mk (encodeVal (.arr a))))
  | .obj o => .ok (.String (String.mk (encodeVal (.obj o))))

/-- The `for field in fields` loop of the `Fields::Json` arm of
`Fields::extract` (`src/main.rs` lines 118-142): destination name falls back
to `src_path`, the inner segment loop is `resolve`, a null resolved value
panics in `json_to_influxdb`. -/
def extractJsonLoop : List JsonField → Json → Point → Except ExtractPanic Point
  | [], _, point => .ok point
  | field :: rest, v, point =>
    let dst_name := field.dst_name.getD field.src_path
    let value := resolve v field.src_path_parts
    match json_to_influxdb value with
    | .error _ => .error .unsupportedValue
    | .ok dbv => extractJsonLoop rest v (field.dst_variant.write_to dst_name dbv point)

/-- `Fields::extract` (`src/main.rs` lines 103-148).  The two `unwrap`s on
decode failures (`std::str::from_utf8` and `serde_json::from_slice`) panic,
modelled as `payloadDecode` errors. -/
def Fields.extract (f : Fields) (value : List Nat) (point : Point) :
    Except ExtractPanic Point :=
  match f with
  | .SingleText dst_variant dst_name =>
    match utf8Decode value with
    | none => .error .payloadDecode
    | some cs => .ok (dst_variant.write_to dst_name (.String (String.mk cs)) point)
  | .Json fields =>
    match parseJsonBytes value with
    | none => .error .payloadDecode
    | some v => extractJsonLoop fields v point

/-- `Entry` (`src/main.rs` lines 150-156). -/
structure Entry where
  src_topic : String
  dst_name : String
  fields : Fields

/-- MQTT topic-filter matching on segment lists.  Modelled from the spec
(§4.1): `rumqttc::matches` is an external dependency; per the spec, `+`
matches exactly one arbitrary segment, `#` as the final pattern segment
matches zero or more trailing segments, and any other pattern segment must
equal the topic segment literally. -/
def matchSegs : List String → List String → Bool
  | [], [] => true
  | [], _ :: _ => false
  | p :: ps, ts =>
    if p = "#" ∧ ps = [] then true
    else
      match ts with
      | [] => false
      | t :: ts' => (if p = "+" then true else p == t) && matchSegs ps ts'

/-- Modelled from the spec (§4.1): `rumqttc::matches(topic, filter)` (the name
`matches` is a Lean keyword, hence `topicMatches`) — split both on the `/` separator and match segment-wise. -/
def topicMatches (topic pattern : String) : Bool :=
  matchSegs ((splitOnChar '/' pattern.data).map String.mk)
    ((splitOnChar '/' topic.data).map String.mk)

/-- The entry lookup of the main loop (`src/main.rs` lines 219-223):
`entries.iter().find(|e| matches(&topic, &e.src_topic))`. -/
def find_entry (topic : String) (entries : List Entry) : Option Entry :=
  entries.find? (fun e => topicMatches topic e.src_topic)

/-- One `Publish` arm of the main loop (`src/main.rs` lines 218-234): pick
the first matching entry, build a fresh point named `dst_name`, extract.
`none` means no entry matched (message dropped, not an error). -/
def handle (entries : List Entry) (topic : String) (payload : List Nat) :
    Option (Except ExtractPanic Point) :=
  (find_entry topic entries).map
    (fun e => e.fields.extract payload (Point.new e.dst_name))

/-- The event loop of `main` over a finite message sequence: produced points
in order, paired with the panic that aborted the loop, if any.  A panic
inside `extract` unwinds out of `main` — no handler catches it — so the
remaining messages are never processed. -/
def runLoop (entries : List Entry) :
    List (String × List Nat) → List Point × Option ExtractPanic
  | [] => ([], none)
  | (topic, payload) :: ms =>
    match handle entries topic payload with
    | none => runLoop entries ms
    | some (.ok p) =>
      let r := runLoop entries ms
      (p :: r.1, r.2)
    | some (.error e) => ([], some e)

/-! ## Subvalues (claim C10) -/

/-- A value reachable from the second argument by repeated array-element or
object-member descent (including the value itself). -/
inductive Subvalue : Json → Json → Prop where
  | refl (v : Json) : Subvalue v v
  | inArr {s x : Json} {l : List Json} : Subvalue s x → x ∈ l → Subvalue s (.arr l)
  | inObj {s : Json} {p : String × Json} {l : List (String × Json)} :
      Subvalue s p.2 → p ∈ l → Subvalue s (.obj l)

theorem Subvalue.trans {a b c : Json} (h1 : Subvalue a b) (h2 : Subvalue b c) :
    Subvalue a c := by
  induction h2 with
  | refl => exact h1
  | inArr hx hmem ih => exact .inArr ih hmem
  | inObj hp hmem ih => exact .inObj ih hmem

theorem objGet_mem {l : List (String × Json)} {k : String} {w : Json}
    (h : objGet l k = some w) : ∃ p ∈ l, p.2 = w := by
  induction l with
  | nil => simp [objGet] at h
  | cons q rest ih =>
    by_cases hq : q.1 == k
    · refine ⟨q, by simp, ?_⟩
      simp [objGet, List.find?, hq] at h
      exact h
    · simp only [objGet, List.find?, hq] at h
      obtain ⟨p, hp, hv⟩ := ih h
      exact ⟨p, by simp [hp], hv⟩

theorem get?_mem_json {l : List Json} {i : Nat} {x : Json}
    (h : l[i]? = some x) : x ∈ l := by
  induction l generalizing i with
  | nil => simp at h
  | cons y rest ih =>
    cases i with
    | zero => simp_all
    | succ j =>
      simp only [List.getElem?_cons_succ] at h
      exact List.mem_cons_of_mem y (ih h)

theorem resolveStep_subvalue (v : Json) (p : String) :
    Subvalue (resolveStep v p) v := by
  cases v with
  | arr a =>
    rw [resolveStep]
    cases hp : parseUsize p with
    | none => exact .refl _
    | some i =>
      cases hg : a[i]? with
      | none => simp only [hg, Option.getD_none]; exact .refl _
      | some x =>
        simp only [hg, Option.getD_some]
        exact .inArr (.refl x) (get?_mem_json hg)
  | obj o =>
    rw [resolveStep]
    cases hg : objGet o p with
    | none => exact .refl _
    | some w =>
      simp only [Option.getD_some]
      obtain ⟨q, hq, hv⟩ := objGet_mem hg
      exact hv ▸ Subvalue.inObj (.refl q.2) hq
  | null => exact .refl _
  | bool b => exact .refl _
  | num n => exact .refl _
  | str s => exact .refl _

/-- C10: for every root document and every path-segment sequence, the value
returned by path resolution is a subvalue of the root document — the root
itself or a value reachable from it by repeated array-element or
object-member descent; resolution never constructs a value that does not
occur in the input document. -/
theorem C10_resolve_subvalue (root : Json) (path : List String) :
    Subvalue (resolve root path) root := by
  induction path generalizing root with
  | nil => exact .refl root
  | cons p ps ih =>
    have hstep : resolve root (p :: ps) = resolve (resolveStep root p) ps := rfl
    rw [hstep]
    exact (ih (resolveStep root p)).trans (resolveStep_subvalue root p)

/-! ## Record accumulation (claim C9) -/

/-- Observe a field/tag map at a name. -/
def lookupVal (m : List (String × DBValue)) (k : String) : Option DBValue :=
  (m.find? (fun p => p.1 == k)).map Prod.snd

theorem lookupVal_cons (q : String × DBValue) (rest : List (String × DBValue)) (k : String) :
    lookupVal (q :: rest) k = if q.1 = k then some q.2 else lookupVal rest k := by
  by_cases h : q.1 = k
  · simp [lookupVal, List.find?, h]
  · have hb : (q.1 == k) = false := by simp [h]
    simp [lookupVal, List.find?, hb, h]

theorem lookupVal_upsert_same (m : List (String × DBValue)) (k : String) (v : DBValue) :
    lookupVal (upsert m k v) k = some v := by
  induction m with
  | nil => simp [upsert, lookupVal_cons]
  | cons q rest ih =>
    by_cases hq : q.1 = k
    · simp [upsert, hq, lookupVal_cons]
    · simp [upsert, hq, lookupVal_cons, ih]

theorem lookupVal_upsert_other (m : List (String × DBValue)) (k k' : String) (v : DBValue)
    (hne : k' ≠ k) : lookupVal (upsert m k v) k' = lookupVal m k' := by
  induction m with
  | nil => simp [upsert, lookupVal_cons, lookupVal, Ne.symm hne]
  | cons q rest ih =>
    by_cases hq : q.1 = k
    · subst hq
      simp [upsert, lookupVal_cons, Ne.symm hne]
    · simp [upsert, hq, lookupVal_cons, ih]

theorem upsert_upsert (m : List (String × DBValue)) (k : String) (v1 v2 : DBValue) :
    upsert (upsert m k v1) k v2 = upsert m k v2 := by
  induction m with
  | nil => simp [upsert]
  | cons q rest ih =>
    by_cases hq : q.1 = k
    · simp [upsert, hq]
    · simp [upsert, hq, ih]

/-- C9: record accumulation routes by destination variant — a `Field` tuple
inserts or overwrites `fields[name]` and leaves the tags unchanged, a `Tag`
tuple inserts or overwrites `tags[name]` and leaves the fields unchanged,
and for several tuples with the same name and variant the last write wins. -/
theorem C9_write_to_routing :
    (∀ (pt : Point) (n : String) (v : DBValue),
       (DstVariant.Field.write_to n v pt).tags = pt.tags ∧
       (DstVariant.Field.write_to n v pt).name = pt.name ∧
       lookupVal (DstVariant.Field.write_to n v pt).fields n = some v ∧
       (∀ k, k ≠ n → lookupVal (DstVariant.Field.write_to n v pt).fields k =
         lookupVal pt.fields k)) ∧
    (∀ (pt : Point) (n : String) (v : DBValue),
       (DstVariant.Tag.write_to n v pt).fields = pt.fields ∧
       (DstVariant.Tag.write_to n v pt).name = pt.name ∧
       lookupVal (DstVariant.Tag.write_to n v pt).tags n = some v ∧
       (∀ k, k ≠ n → lookupVal (DstVariant.Tag.write_to n v pt).tags k =
         lookupVal pt.tags k)) ∧
    (∀ (dv : DstVariant) (pt : Point) (n : String) (v1 v2 : DBValue),
       dv.write_to n v2 (dv.write_to n v1 pt) = dv.write_to n v2 pt) := by
  refine ⟨fun pt n v => ⟨rfl, rfl, ?_, fun k hk => ?_⟩,
          fun pt n v => ⟨rfl, rfl, ?_, fun k hk => ?_⟩,
          fun dv pt n v1 v2 => ?_⟩
  · exact lookupVal_upsert_same pt.fields n v
  · exact lookupVal_upsert_other pt.fields n k v hk
  · exact lookupVal_upsert_same pt.tags n v
  · exact lookupVal_upsert_other pt.tags n k v hk
  · cases dv <;>
      simp [DstVariant.write_to, Point.add_field, Point.add_tag, upsert_upsert]

/-- Witness for C9 at concrete inputs. -/
theorem C9_write_to_routing_witness :
    lookupVal ((DstVariant.Field.write_to "x" (.Boolean true) (Point.new "m")).fields) "y" =
      lookupVal (Point.new "m").fields "y" :=
  (C9_write_to_routing.1 (Point.new "m") "x" (.Boolean true)).2.2.2 "y" (by decide)

/-! ## Entry selection (claim C5) -/

theorem find_entry_some_split (topic : String) (entries : List Entry) (e : Entry)
    (h : find_entry topic entries = some e) :
    topicMatches topic e.src_topic = true ∧
      ∃ pre post, entries = pre ++ e :: post ∧
        ∀ e' ∈ pre, topicMatches topic e'.src_topic = false := by
  induction entries with
  | nil => simp [find_entry] at h
  | cons a rest ih =>
    by_cases ha : topicMatches topic a.src_topic
    · have : find_entry topic (a :: rest) = some a := by
        simp [find_entry, List.find?, ha]
      rw [this] at h
      cases h
      exact ⟨ha, [], rest, rfl, by simp⟩
    · have hrec : find_entry topic (a :: rest) = find_entry topic rest := by
        have hb : topicMatches topic a.src_topic = false := by
          simpa using ha
        simp [find_entry, List.find?, hb]
      rw [hrec] at h
      obtain ⟨hm, pre, post, hsplit, hpre⟩ := ih h
      refine ⟨hm, a :: pre, post, by simp [hsplit], ?_⟩
      intro e' he'
      rcases List.mem_cons.mp he' with rfl | hmem
      · simpa using ha
      · exact hpre e' hmem

/-- C5: entry selection is first-match-wins — `find_entry` returns `none`
exactly when no entry's pattern matches (and then no record is produced at
all), and when it returns an entry, that entry matches and every entry
configured before it does not; with entries `a/+` then `a/b` and topic
`a/b`, the first entry is selected. -/
theorem C5_first_match_wins :
    (∀ (topic : String) (entries : List Entry),
       find_entry topic entries = none ↔
         ∀ e ∈ entries, topicMatches topic e.src_topic = false) ∧
    (∀ (topic : String) (entries : List Entry) (e : Entry),
       find_entry topic entries = some e →
         topicMatches topic e.src_topic = true ∧
           ∃ pre post, entries = pre ++ e :: post ∧
             ∀ e' ∈ pre, topicMatches topic e'.src_topic = false) ∧
    (∀ (topic : String) (payload : List Nat) (entries : List Entry),
       find_entry topic entries = none → handle entries topic payload = none) ∧
    find_entry "a/b"
        [⟨"a/+", "n1", .SingleText .Field "v"⟩, ⟨"a/b", "n2", .SingleText .Field "v"⟩] =
      some ⟨"a/+", "n1", .SingleText .Field "v"⟩ := by
  refine ⟨fun topic entries => ?_, find_entry_some_split, fun topic payload entries h => ?_, rfl⟩
  · simp [find_entry, List.find?_eq_none]
  · simp [handle, h]

/-- Witness for C5 at concrete inputs: applying the first-match
characterization to the two-entry example. -/
theorem C5_first_match_wins_witness :
    topicMatches "a/b" "a/+" = true ∧
      ∃ pre post,
        [(⟨"a/+", "n1", .SingleText .Field "v"⟩ : Entry),
         ⟨"a/b", "n2", .SingleText .Field "v"⟩] =
          pre ++ (⟨"a/+", "n1", .SingleText .Field "v"⟩ : Entry) :: post ∧
          ∀ e' ∈ pre, topicMatches "a/b" e'.src_topic = false :=
  C5_first_match_wins.2.1 "a/b"
    [⟨"a/+", "n1", .SingleText .Field "v"⟩, ⟨"a/b", "n2", .SingleText .Field "v"⟩]
    ⟨"a/+", "n1", .SingleText .Field "v"⟩ rfl

/-! ## Topic matching (claim C6) -/

/-- The declarative matching relation of §4.1 on segment lists: `+` consumes
exactly one arbitrary topic segment, `#` as the final pattern segment
consumes zero or more remaining segments, and any other pattern segment
must equal the topic segment literally. -/
inductive MatchesRel : List String → List String → Prop where
  | nil : MatchesRel [] []
  | hash (ts : List String) : MatchesRel ["#"] ts
  | plus {ps ts : List String} (t : String) :
      MatchesRel ps ts → MatchesRel ("+" :: ps) (t :: ts)
  | lit {ps ts : List String} (s : String) (h1 : s ≠ "+") (h2 : s ≠ "#") :
      MatchesRel ps ts → MatchesRel (s :: ps) (s :: ts)

/-- A legal pattern: `#` appears only as the final segment. -/
def validPattern : List String → Bool
  | [] => true
  | s :: rest => if rest = [] then true else s != "#" && validPattern rest

theorem MatchesRel.cons_inv {p : String} {ps ts : List String}
    (h : MatchesRel (p :: ps) ts) :
    (p = "#" ∧ ps = []) ∨
      (p = "+" ∧ ∃ t ts2, ts = t :: ts2 ∧ MatchesRel ps ts2) ∨
      (p ≠ "+" ∧ p ≠ "#" ∧ ∃ ts2, ts = p :: ts2 ∧ MatchesRel ps ts2) := by
  cases h with
  | hash => exact Or.inl ⟨rfl, rfl⟩
  | plus t hrel => exact Or.inr (Or.inl ⟨rfl, t, _, rfl, hrel⟩)
  | lit s h1 h2 hrel => exact Or.inr (Or.inr ⟨h1, h2, _, rfl, hrel⟩)

theorem matchSegs_iff_matchesRel :
    ∀ (ps ts : List String), validPattern ps = true →
      (matchSegs ps ts = true ↔ MatchesRel ps ts) := by
  intro ps
  induction ps with
  | nil =>
    intro ts _
    cases ts with
    | nil => simpa [matchSegs] using MatchesRel.nil
    | cons t ts2 =>
      simp only [matchSegs, Bool.false_eq_true, false_iff]
      intro h
      cases h
  | cons p ps ih =>
    intro ts hvalid
    rcases eq_or_ne p "#" with rfl | hp
    · cases ps with
      | nil => simpa [matchSegs] using MatchesRel.hash ts
      | cons q qs => simp [validPattern] at hvalid
    · have hcond : ¬(p = "#" ∧ ps = []) := fun hc => hp hc.1
      have hvalid2 : validPattern ps = true := by
        cases ps with
        | nil => rfl
        | cons q qs =>
          simp only [validPattern, if_neg (by simp : ¬(q :: qs : List String) = []),
            Bool.and_eq_true] at hvalid
          exact hvalid.2
      cases ts with
      | nil =>
        simp only [matchSegs, if_neg hcond, Bool.false_eq_true, false_iff]
        intro h
        rcases MatchesRel.cons_inv h with ⟨hh, _⟩ | ⟨_, _, _, hts, _⟩ | ⟨_, _, _, hts, _⟩
        · exact hp hh
        · exact List.noConfusion hts
        · exact List.noConfusion hts
      | cons t ts2 =>
        rcases eq_or_ne p "+" with rfl | hplus
        · have hms : matchSegs ("+" :: ps) (t :: ts2) = matchSegs ps ts2 := by
            simp [matchSegs, hcond]
          rw [hms, ih ts2 hvalid2]
          constructor
          · exact fun h => .plus t h
          · intro h
            rcases MatchesRel.cons_inv h with ⟨hh, _⟩ | ⟨_, t2, ts3, hts, hrel⟩ |
              ⟨hne, _, _, _, _⟩
            · exact absurd hh (by decide)
            · cases hts
              exact hrel
            · exact absurd rfl hne
        · have hms : matchSegs (p :: ps) (t :: ts2) = ((p == t) && matchSegs ps ts2) := by
            simp [matchSegs, hcond, hplus]
          rw [hms, Bool.and_eq_true, beq_iff_eq, ih ts2 hvalid2]
          constructor
          · rintro ⟨rfl, h⟩
            exact .lit p hplus hp h
          · intro h
            rcases MatchesRel.cons_inv h with ⟨hh, _⟩ | ⟨hh, _, _, _, _⟩ |
              ⟨_, _, ts3, hts, hrel⟩
            · exact absurd hh hp
            · exact absurd hh hplus
            · cases hts
              exact ⟨rfl, hrel⟩

/-- C6: topic matching is transport-style hierarchical wildcarding — topics
and patterns are split on `/`; for a legal pattern (`#` only final), the
matcher accepts exactly the topics related by `MatchesRel`: `+` matches
exactly one arbitrary segment (never several), `#` as the final segment
matches zero or more trailing segments, and every other pattern segment
must equal the topic segment literally. -/
theorem C6_topic_matching (pattern topic : String)
    (hvalid : validPattern ((splitOnChar '/' pattern.data).map String.mk) = true) :
    topicMatches topic pattern = true ↔
      MatchesRel ((splitOnChar '/' pattern.data).map String.mk)
        ((splitOnChar '/' topic.data).map String.mk) :=
  matchSegs_iff_matchesRel _ _ hvalid

/-- Witness for C6 at concrete inputs. -/
theorem C6_topic_matching_witness :
    validPattern ((splitOnChar '/' "a/+".data).map String.mk) = true ∧
      (topicMatches "a/b" "a/+" = true ↔
        MatchesRel ((splitOnChar '/' "a/+".data).map String.mk)
          ((splitOnChar '/' "a/b".data).map String.mk)) :=
  ⟨by decide, C6_topic_matching "a/+" "a/b" (by decide)⟩

/-! ## Path resolution (claims C1, C10) -/

/-- The path-resolution step in the words of §4.2, with the empty-segment
sentence corrected: descend into an in-range array element when the segment
parses as a non-negative integer index, descend into a present object
member (which an empty segment can name, when the object has a `""` key),
and in every other case — non-integer segment on an array, out-of-range
index, missing key, scalar current value — leave the value unchanged. -/
def resolveStepSpec (v : Json) (p : String) : Json :=
  match v with
  | .arr a =>
    match parseUsize p with
    | some i => if h : i < a.length then a[i] else v
    | none => v
  | .obj o =>
    match objGet o p with
    | some w => w
    | none => v
  | _ => v

/-- Path resolution in the words of §4.2: a fold of the step over the
segments that never fails and returns the last successfully reached
value. -/
def resolveSpec (root : Json) (path : List String) : Json :=
  path.foldl resolveStepSpec root

theorem resolveStep_eq_spec (v : Json) (p : String) :
    resolveStep v p = resolveStepSpec v p := by
  cases v with
  | arr a =>
    simp only [resolveStep, resolveStepSpec]
    cases hp : parseUsize p with
    | none => rfl
    | some i =>
      by_cases h : i < a.length
      · simp [List.getElem?_eq_getElem h, h]
      · simp [List.getElem?_eq_none (by omega : a.length ≤ i), h]
  | obj o =>
    simp only [resolveStep, resolveStepSpec]
    cases objGet o p <;> rfl
  | null => rfl
  | bool b => rfl
  | num n => rfl
  | str s => rfl

/-- The document `{"a":{"b":[10,20]}}` of the C1 example. -/
def docC1 : Json :=
  .obj [("a", .obj [("b", .arr [.num (.intg 10), .num (.intg 20)])])]

/-- Counterexample to C1 as stated.  First, the claim's own example is
wrong: path `a.b.0` against `{"a":{"b":[10,20]}}` resolves to `10` (index 0
is the first element), not `20`.  Second, an empty segment does not always
leave the current value unchanged: against an object that contains the
empty string as a key, `o.get("")` succeeds and resolution descends. -/
theorem C1_counterexample :
    resolve docC1 (srcPathParts "a.b.0") = .num (.intg 10) ∧
      Json.num (.intg 10) ≠ .num (.intg 20) ∧
      resolve (.obj [("", .num (.intg 42))]) (srcPathParts "") = .num (.intg 42) ∧
      Json.num (.intg 42) ≠ .obj [("", .num (.intg 42))] := by
  refine ⟨by decide, by decide, by decide, by decide⟩

/-- C1 (amended): path resolution is a lenient fold over dot-separated
segments — starting from the parsed root, each segment in order descends
into an array element when the current value is an array and the segment
parses as an in-range non-negative integer index, descends into an object
member when the current value is an object containing the segment as a key
(an empty segment included), and in every other case (non-integer segment
on an array, out-of-range index, missing key, scalar current value) leaves
the current value unchanged; resolution never fails and returns the last
successfully reached value.  Path `a.b.0` against `{"a":{"b":[10,20]}}`
resolves to `10`, and path `a.x` against the same document resolves to
`{"b":[10,20]}`. -/
theorem C1_lenient_resolution :
    (∀ root, resolve root [] = root) ∧
      (∀ root p ps, resolve root (p :: ps) = resolve (resolveStepSpec root p) ps) ∧
      (∀ root path, resolve root path = resolveSpec root path) ∧
      resolve docC1 (srcPathParts "a.b.0") = .num (.intg 10) ∧
      resolve docC1 (srcPathParts "a.x") =
        .obj [("b", .arr [.num (.intg 10), .num (.intg 20)])] := by
  have hstep : ∀ root p ps, resolve root (p :: ps) = resolve (resolveStep root p) ps :=
    fun root p ps => rfl
  have hall : ∀ path root, resolve root path = resolveSpec root path := by
    intro path
    induction path with
    | nil => intro root; rfl
    | cons p ps ih =>
      intro root
      rw [hstep, resolveStep_eq_spec]
      exact ih (resolveStepSpec root p)
  refine ⟨fun root => rfl, fun root p ps => ?_, fun root path => hall path root,
    by decide, by decide⟩
  rw [hstep, resolveStep_eq_spec]

/-! ## Decode failures and null coercion (claims C2, C3, C8) -/

/-- Counterexample to C2 as stated.  The claim says a decode failure is
reported to the caller and processing continues with the next message,
never terminating the process.  In the code both decode sites `unwrap`:
with a `SingleText` entry and an invalid-UTF-8 first payload, the loop
aborts with a panic and the following valid message — which on its own
would produce a record (second conjunct) — is never processed. -/
theorem C2_counterexample :
    runLoop [⟨"t", "n", .SingleText .Field "v"⟩] [("t", [0xFF]), ("t", [0x61])] =
        ([], some .payloadDecode) ∧
      runLoop [⟨"t", "n", .SingleText .Field "v"⟩] [("t", [0x61])] =
        ([⟨"n", [("v", .String "a")], []⟩], none) :=
  ⟨by decide, by decide⟩

/-- C2 (amended): for every payload that is not valid UTF-8 (under a
`SingleText` field spec) or not valid JSON (under a `Json` field spec),
extraction panics on the decode `unwrap`; no record is produced for the
message, the failure is not returned to a caller, and in the current
behavior the panic is fatal — the loop stops and subsequent messages are
not processed. -/
theorem C2_decode_failure_fatal :
    (∀ (dv : DstVariant) (dn : String) (bytes : List Nat) (pt : Point),
       utf8Decode bytes = none →
         Fields.extract (.SingleText dv dn) bytes pt = .error .payloadDecode) ∧
      (∀ (fl : List JsonField) (bytes : List Nat) (pt : Point),
         parseJsonBytes bytes = none →
           Fields.extract (.Json fl) bytes pt = .error .payloadDecode) ∧
      (∀ (entries : List Entry) (topic : String) (payload : List Nat)
         (ms : List (String × List Nat)) (e : ExtractPanic),
         handle entries topic payload = some (.error e) →
           runLoop entries ((topic, payload) :: ms) = ([], some e)) := by
  refine ⟨fun dv dn bytes pt h => ?_, fun fl bytes pt h => ?_,
    fun entries topic payload ms e h => ?_⟩
  · simp [Fields.extract, h]
  · simp [Fields.extract, h]
  · simp [runLoop, h]

/-- Witness for C2 (amended) at concrete inputs. -/
theorem C2_decode_failure_fatal_witness :
    utf8Decode [0xFF] = none ∧
      Fields.extract (.SingleText .Field "v") [0xFF] (Point.new "n") =
        .error .payloadDecode :=
  ⟨by decide, C2_decode_failure_fatal.1 .Field "v" [0xFF] (Point.new "n") (by decide)⟩

theorem extractJsonLoop_null (fields : List JsonField) (v : Json) (pt : Point)
    (h : ∃ f ∈ fields, resolve v f.src_path_parts = .null) :
    extractJsonLoop fields v pt = .error .unsupportedValue := by
  induction fields generalizing pt with
  | nil => simp at h
  | cons f rest ih =>
    rcases h with ⟨g, hg, hnull⟩
    rcases List.mem_cons.mp hg with rfl | hmem
    · simp [extractJsonLoop, hnull, json_to_influxdb]
    · cases hc : json_to_influxdb (resolve v f.src_path_parts) with
      | error e => simp [extractJsonLoop, hc]
      | ok dbv =>
        simp only [extractJsonLoop, hc]
        exact ih _ ⟨g, hmem, hnull⟩

/-- C3: coercing a resolved JSON null is unsupported — `json_to_influxdb`
hits `unimplemented!()`, modelled as the error case; whenever some
configured path of a `Json` field spec resolves to null, extraction ends
in the `unsupportedValue` panic and no record is produced; and in the
current behavior that panic is fatal: the loop stops and later messages are
not processed. -/
theorem C3_null_coercion_fatal :
    json_to_influxdb .null = .error () ∧
      (∀ (fields : List JsonField) (bytes : List Nat) (pt : Point) (v : Json),
         parseJsonBytes bytes = some v →
           (∃ f ∈ fields, resolve v f.src_path_parts = .null) →
             Fields.extract (.Json fields) bytes pt = .error .unsupportedValue) ∧
      (∀ (entries : List Entry) (topic : String) (payload : List Nat)
         (ms : List (String × List Nat)),
         handle entries topic payload = some (.error .unsupportedValue) →
           runLoop entries ((topic, payload) :: ms) = ([], some .unsupportedValue)) := by
  refine ⟨rfl, fun fields bytes pt v hparse hex => ?_, fun entries topic payload ms h => ?_⟩
  · simp only [Fields.extract, hparse]
    exact extractJsonLoop_null fields v pt hex
  · simp [runLoop, h]

/-- Witness for C3 at concrete inputs: payload `{"x":null}` with a field of
path `x`. -/
theorem C3_null_coercion_fatal_witness :
    Fields.extract (.Json [⟨"x", .Field, none⟩]) ("\x7b\"x\":null\x7d".data.map Char.toNat)
        (Point.new "n") = .error .unsupportedValue :=
  C3_null_coercion_fatal.2.1 [⟨"x", .Field, none⟩] ("\x7b\"x\":null\x7d".data.map Char.toNat)
    (Point.new "n") (.obj [("x", .null)]) (by decide)
    ⟨⟨"x", .Field, none⟩, by decide, by decide⟩

/-- C8: a `SingleText` field spec on a payload that is valid UTF-8 emits
exactly one tuple `(dst_name, dst_variant, String(text))` with the decoded
text verbatim — the point is extended by that single `write_to` and nothing
else: the opposite map is untouched and the named map changes by exactly
one insert/overwrite. -/
theorem C8_single_text (dv : DstVariant) (dn : String) (bytes : List Nat) (pt : Point)
    (cs : List Char) (h : utf8Decode bytes = some cs) :
    Fields.extract (.SingleText dv dn) bytes pt =
        .ok (dv.write_to dn (.String (String.mk cs)) pt) ∧
      (DstVariant.Field.write_to dn (.String (String.mk cs)) pt).fields =
        upsert pt.fields dn (.String (String.mk cs)) ∧
      (DstVariant.Field.write_to dn (.String (String.mk cs)) pt).tags = pt.tags ∧
      (DstVariant.Tag.write_to dn (.String (String.mk cs)) pt).tags =
        upsert pt.tags dn (.String (String.mk cs)) ∧
      (DstVariant.Tag.write_to dn (.String (String.mk cs)) pt).fields = pt.fields := by
  refine ⟨?_, rfl, rfl, rfl, rfl⟩
  simp [Fields.extract, h]

/-- Witness for C8 at concrete inputs. -/
theorem C8_single_text_witness :
    utf8Decode [0x68, 0x69] = some ['h', 'i'] ∧
      Fields.extract (.SingleText .Field "v") [0x68, 0x69] (Point.new "n") =
        .ok (DstVariant.Field.write_to "v" (.String (String.mk ['h', 'i'])) (Point.new "n")) :=
  ⟨by decide,
   (C8_single_text .Field "v" [0x68, 0x69] (Point.new "n") ['h', 'i'] (by decide)).1⟩

/-! ## Json field emission (claim C7) -/

/-- The tuple one `JsonField` emits, in the words of §4.4: the name is
`dst_name` when present and otherwise `src_path`, the variant is
`dst_variant`, and the value is the coercion of resolving `src_path` split
on `.` against the parsed document (failing on a null resolved value). -/
def specTuple (f : JsonField) (v : Json) : Except Unit (String × DstVariant × DBValue) :=
  (json_to_influxdb (resolve v (srcPathParts f.src_path))).map
    (fun dbv => (f.dst_name.getD f.src_path, f.dst_variant, dbv))

/-- The tuples of all configured fields, in declared order (failing as soon
as one field's coercion fails). -/
def specTuples : List JsonField → Json → Except Unit (List (String × DstVariant × DBValue))
  | [], _ => .ok []
  | f :: rest, v =>
    match specTuple f v with
    | .error e => .error e
    | .ok t =>
      match specTuples rest v with
      | .error e => .error e
      | .ok ts => .ok (t :: ts)

/-- Apply emitted tuples to a point, in emission order. -/
def applyTuples (ts : List (String × DstVariant × DBValue)) (pt : Point) : Point :=
  ts.foldl (fun p t => t.2.1.write_to t.1 t.2.2 p) pt

theorem extractJsonLoop_eq_specTuples (fields : List JsonField) (v : Json) (pt : Point) :
    extractJsonLoop fields v pt =
      match specTuples fields v with
      | .error _ => .error .unsupportedValue
      | .ok ts => .ok (applyTuples ts pt) := by
  induction fields generalizing pt with
  | nil => simp [extractJsonLoop, specTuples, applyTuples]
  | cons f rest ih =>
    cases hc : json_to_influxdb (resolve v (srcPathParts f.src_path)) with
    | error e =>
      simp [extractJsonLoop, JsonField.src_path_parts, hc, specTuples, specTuple,
        Except.map]
    | ok dbv =>
      simp only [extractJsonLoop, JsonField.src_path_parts, hc, specTuples, specTuple,
        Except.map]
      rw [ih]
      cases hrest : specTuples rest v with
      | error e => simp [hrest]
      | ok ts => simp [hrest, applyTuples]

/-- C7: for a `Json` field spec on a payload that parses as JSON, the engine
processes the configured fields in declared order, emitting for each one a
tuple whose name is `dst_name` when present and otherwise `src_path`, whose
variant is `dst_variant`, and whose value is the coercion of resolving
`src_path` (split on `.`) against the parsed document; the record is the
left fold of those tuples over the fresh point, so emission order equals
declaration order.  `JsonField{src_path:"temp"}` with no `dst_name` emits a
tuple named `"temp"`. -/
theorem C7_json_fields_emission :
    (∀ (fields : List JsonField) (bytes : List Nat) (pt : Point),
       Fields.extract (.Json fields) bytes pt =
         match parseJsonBytes bytes with
         | none => .error .payloadDecode
         | some v =>
           match specTuples fields v with
           | .error _ => .error .unsupportedValue
           | .ok ts => .ok (applyTuples ts pt)) ∧
      specTuples [⟨"temp", .Field, none⟩] (.obj [("temp", .num (.intg 1))]) =
        .ok [("temp", .Field, .Float 1)] := by
  refine ⟨fun fields bytes pt => ?_, by decide⟩
  cases hp : parseJsonBytes bytes with
  | none => simp [Fields.extract, hp]
  | some v =>
    simp only [Fields.extract, hp]
    exact extractJsonLoop_eq_specTuples fields v pt

/-! ## Number encoding round-trip lemmas (claim C4) -/

theorem digitChar_isDigit : ∀ d : Nat, d < 10 → (Nat.digitChar d).isDigit = true := by
  decide

theorem digitVal_digitChar : ∀ d : Nat, d < 10 → digitVal (Nat.digitChar d) = d := by
  decide

theorem digitChar_ne_zero_char : ∀ d : Nat, d < 10 → d ≠ 0 → Nat.digitChar d ≠ '0' := by
  decide

theorem digitChar_not_ws : ∀ d : Nat, d < 10 → isWs (Nat.digitChar d) = false := by
  decide

theorem charsOfNatAux_eq_digits :
    ∀ (fuel n : Nat), n ≤ fuel →
      charsOfNatAux fuel n = ((Nat.digits 10 n).map Nat.digitChar).reverse := by
  intro fuel
  induction fuel with
  | zero =>
    intro n hn
    interval_cases n
    simp [charsOfNatAux]
  | succ fuel ih =>
    intro n hn
    by_cases h0 : n = 0
    · subst h0
      simp [charsOfNatAux]
    · have hdiv : n / 10 ≤ fuel := by
        have := Nat.div_lt_self (Nat.pos_of_ne_zero h0) (by norm_num : 1 < 10)
        omega
      rw [charsOfNatAux, if_neg h0,
        Nat.digits_def' (by norm_num : 1 < 10) (Nat.pos_of_ne_zero h0),
        ih (n / 10) hdiv]
      simp

theorem charsOfNat_eq_digits (n : Nat) (h0 : n ≠ 0) :
    charsOfNat n = ((Nat.digits 10 n).map Nat.digitChar).reverse := by
  rw [charsOfNat, if_neg h0, charsOfNatAux_eq_digits n n le_rfl]

theorem charsOfNat_all_digits (n : Nat) : ∀ c ∈ charsOfNat n, c.isDigit = true := by
  by_cases h0 : n = 0
  · subst h0
    intro c hc
    simp [charsOfNat] at hc
    subst hc
    decide
  · rw [charsOfNat_eq_digits n h0]
    intro c hc
    rw [List.mem_reverse, List.mem_map] at hc
    obtain ⟨d, hd, rfl⟩ := hc
    exact digitChar_isDigit d (Nat.digits_lt_base (by norm_num) hd)

theorem digitsVal_digits_aux (ds : List Nat) (h : ∀ d ∈ ds, d < 10) (acc : Nat) :
    List.foldl (fun a c => 10 * a + digitVal c) acc ((ds.map Nat.digitChar).reverse) =
      acc * 10 ^ ds.length + Nat.ofDigits 10 ds := by
  induction ds generalizing acc with
  | nil => simp [Nat.ofDigits]
  | cons d ds ih =>
    have hd : d < 10 := h d (by simp)
    have hds : ∀ x ∈ ds, x < 10 := fun x hx => h x (by simp [hx])
    simp only [List.map_cons, List.reverse_cons, List.foldl_append, List.foldl_cons,
      List.foldl_nil, ih hds acc, Nat.ofDigits_cons, List.length_cons]
    rw [digitVal_digitChar d hd]
    ring

theorem digitsVal_charsOfNat (n : Nat) : digitsVal (charsOfNat n) = n := by
  by_cases h0 : n = 0
  · subst h0
    decide
  · rw [charsOfNat_eq_digits n h0, digitsVal,
      digitsVal_digits_aux _ (fun d hd => Nat.digits_lt_base (by norm_num) hd) 0]
    simp [Nat.ofDigits_digits]

theorem charsOfNat_head (n : Nat) (h0 : n ≠ 0) :
    ∃ c cs, charsOfNat n = c :: cs ∧ c ≠ '0' ∧ c.isDigit = true := by
  rw [charsOfNat_eq_digits n h0]
  have hne : Nat.digits 10 n ≠ [] := Nat.digits_ne_nil_iff_ne_zero.mpr h0
  obtain ⟨ds, d, hds⟩ := List.eq_nil_or_concat (Nat.digits 10 n) |>.resolve_left hne
  have hlast : d ≠ 0 := by
    have hgl := Nat.getLast_digit_ne_zero 10 h0
    have h1 : (Nat.digits 10 n).getLast? = some d := by
      rw [hds]
      simp
    have h2 : (Nat.digits 10 n).getLast? =
        some ((Nat.digits 10 n).getLast (Nat.digits_ne_nil_iff_ne_zero.mpr h0)) :=
      List.getLast?_eq_getLast _ _
    have hd := Option.some.inj (h2.symm.trans h1)
    rw [← hd]
    exact hgl
  have hd10 : d < 10 := Nat.digits_lt_base (by norm_num) (by rw [hds]; simp)
  refine ⟨Nat.digitChar d, (ds.map Nat.digitChar).reverse, ?_,
    digitChar_ne_zero_char d hd10 hlast, digitChar_isDigit d hd10⟩
  rw [hds]
  simp

theorem takeWhile_append_all {p : Char → Bool} {l r : List Char}
    (h : ∀ c ∈ l, p c = true) : (l ++ r).takeWhile p = l ++ r.takeWhile p := by
  induction l with
  | nil => simp
  | cons c cs ih =>
    have hc := h c (by simp)
    simp [List.takeWhile_cons, hc, ih (fun x hx => h x (by simp [hx]))]

theorem dropWhile_append_all {p : Char → Bool} {l r : List Char}
    (h : ∀ c ∈ l, p c = true) : (l ++ r).dropWhile p = r.dropWhile p := by
  induction l with
  | nil => simp
  | cons c cs ih =>
    have hc := h c (by simp)
    simp [List.dropWhile_cons, hc, ih (fun x hx => h x (by simp [hx]))]

theorem takeWhile_head_false {p : Char → Bool} {r : List Char}
    (h : match r with | [] => True | c :: _ => p c = false) : r.takeWhile p = [] := by
  cases r with
  | nil => rfl
  | cons c cs => simp_all [List.takeWhile_cons]

theorem dropWhile_head_false {p : Char → Bool} {r : List Char}
    (h : match r with | [] => True | c :: _ => p c = false) : r.dropWhile p = r := by
  cases r with
  | nil => rfl
  | cons c cs => simp_all [List.dropWhile_cons]

/-- Heads that cannot continue a digit run. -/
def notDigitHead : List Char → Prop
  | [] => True
  | c :: _ => c.isDigit = false

theorem parseIntDigits_charsOfNat (n : Nat) (rest : List Char) (hrest : notDigitHead rest) :
    parseIntDigits (charsOfNat n ++ rest) = some (n, rest) := by
  by_cases h0 : n = 0
  · subst h0
    simp [charsOfNat, parseIntDigits]
  · obtain ⟨c, cs, hcons, hc0, hcd⟩ := charsOfNat_head n h0
    have hall : ∀ x ∈ charsOfNat n, x.isDigit = true := charsOfNat_all_digits n
    have htake : (charsOfNat n ++ rest).takeWhile Char.isDigit = charsOfNat n := by
      rw [takeWhile_append_all hall, takeWhile_head_false (by exact hrest)]
      simp
    have hdrop : (charsOfNat n ++ rest).dropWhile Char.isDigit = rest := by
      rw [dropWhile_append_all hall, dropWhile_head_false (by exact hrest)]
    rw [hcons]
    rw [hcons] at htake hdrop
    simp only [List.cons_append] at htake hdrop ⊢
    simp only [parseIntDigits]
    split
    · next heq =>
      rw [List.cons.injEq] at heq
      exact absurd heq.1 hc0
    · simp only [htake, hdrop]
      rw [if_neg (by simp)]
      have : digitsVal (c :: cs) = n := by
        rw [← hcons]
        exact digitsVal_charsOfNat n
      rw [this]

theorem padDigits_all_digits : ∀ (e n : Nat), ∀ c ∈ padDigits e n, c.isDigit = true := by
  intro e
  induction e with
  | zero => intro n c hc; simp [padDigits] at hc
  | succ e ih =>
    intro n c hc
    rw [padDigits] at hc
    rcases List.mem_append.mp hc with h | h
    · exact ih (n / 10) c h
    · simp at h
      subst h
      exact digitChar_isDigit _ (Nat.mod_lt n (by norm_num))

theorem padDigits_length : ∀ (e n : Nat), (padDigits e n).length = e := by
  intro e
  induction e with
  | zero => intro n; rfl
  | succ e ih => intro n; simp [padDigits, ih]

theorem digitsVal_padDigits_aux :
    ∀ (e n acc : Nat),
      List.foldl (fun a c => 10 * a + digitVal c) acc (padDigits e n) =
        acc * 10 ^ e + n % 10 ^ e := by
  intro e
  induction e with
  | zero => intro n acc; simp [padDigits, Nat.mod_one]
  | succ e ih =>
    intro n acc
    rw [padDigits, List.foldl_append, ih (n / 10) acc]
    simp only [List.foldl_cons, List.foldl_nil]
    rw [digitVal_digitChar _ (Nat.mod_lt n (by norm_num))]
    have hkey : n % 10 ^ (e + 1) = 10 * (n / 10 % 10 ^ e) + n % 10 := by
      rw [pow_succ', Nat.mod_mul]
      ring
    rw [hkey]
    ring

theorem digitsVal_padDigits (e n : Nat) (h : n < 10 ^ e) :
    digitsVal (padDigits e n) = n := by
  rw [digitsVal, digitsVal_padDigits_aux e n 0, Nat.mod_eq_of_lt h]
  simp

theorem numStop_spec {c : Char} {cs : List Char} (h : numStop (c :: cs) = true) :
    c.isDigit = false ∧ c ≠ '.' ∧ c ≠ 'e' ∧ c ≠ 'E' := by
  simp [numStop] at h
  exact ⟨h.1.1.1, h.1.1.2, h.1.2, h.2⟩

theorem numStop_notDigitHead {r : List Char} (h : numStop r = true) : notDigitHead r := by
  cases r with
  | nil => trivial
  | cons c cs => exact (numStop_spec h).1

theorem finishNumExp_stop (neg : Bool) (ip fv fc : Nat) (hadDot : Bool) (rest : List Char)
    (h : numStop rest = true) :
    finishNumExp neg ip fv fc hadDot rest = some (mkNum neg ip fv fc hadDot 0, rest) := by
  cases rest with
  | nil => rfl
  | cons c cs =>
    obtain ⟨-, -, he, hE⟩ := numStop_spec h
    simp only [finishNumExp]
    split
    · next heq =>
      rw [List.cons.injEq] at heq
      exact absurd heq.1 he
    · next heq =>
      rw [List.cons.injEq] at heq
      exact absurd heq.1 hE
    · rfl

theorem parseNumTail_stop (neg : Bool) (ip : Nat) (rest : List Char)
    (hstop : numStop rest = true) :
    parseNumTail neg ip rest = some (mkNum neg ip 0 0 false 0, rest) := by
  cases rest with
  | nil => simp [parseNumTail, finishNumExp]
  | cons c cs =>
    obtain ⟨-, hdot, -, -⟩ := numStop_spec hstop
    have harm : parseNumTail neg ip (c :: cs) = finishNumExp neg ip 0 0 false (c :: cs) := by
      simp only [parseNumTail]
      split
      · next heq =>
        rw [List.cons.injEq] at heq
        exact absurd heq.1 hdot
      · rfl
    rw [harm, finishNumExp_stop neg ip 0 0 false (c :: cs) hstop]

theorem parseNumCore_intg (neg : Bool) (n : Nat) (rest : List Char)
    (hstop : numStop rest = true) :
    parseNumCore neg (charsOfNat n ++ rest) =
      some (.intg (if neg then -(n : Int) else (n : Int)), rest) := by
  rw [parseNumCore, parseIntDigits_charsOfNat n rest (numStop_notDigitHead hstop)]
  show parseNumTail neg n rest = _
  rw [parseNumTail_stop neg n rest hstop]
  simp [mkNum]

theorem parseNumCore_frac (neg : Bool) (q e f : Nat) (rest : List Char)
    (he : 1 ≤ e) (hf : f < 10 ^ e) (hstop : numStop rest = true) :
    parseNumCore neg (charsOfNat q ++ '.' :: (padDigits e f ++ rest)) =
      some (.frac (if neg then -((q * 10 ^ e + f : Nat) : Int)
        else ((q * 10 ^ e + f : Nat) : Int)) e, rest) := by
  have hnd : notDigitHead ('.' :: (padDigits e f ++ rest)) := by
    show Char.isDigit '.' = false
    decide
  rw [parseNumCore, parseIntDigits_charsOfNat q _ hnd]
  have htake : (padDigits e f ++ rest).takeWhile Char.isDigit = padDigits e f := by
    rw [takeWhile_append_all (padDigits_all_digits e f),
      takeWhile_head_false (by cases rest with
        | nil => trivial
        | cons c cs => exact (numStop_spec hstop).1)]
    simp
  have hdrop : (padDigits e f ++ rest).dropWhile Char.isDigit = rest := by
    rw [dropWhile_append_all (padDigits_all_digits e f),
      dropWhile_head_false (by cases rest with
        | nil => trivial
        | cons c cs => exact (numStop_spec hstop).1)]
  have hne : ¬(padDigits e f = []) := by
    intro hnil
    have := padDigits_length e f
    rw [hnil] at this
    simp at this
    omega
  show parseNumTail neg q ('.' :: (padDigits e f ++ rest)) = _
  have harm : parseNumTail neg q ('.' :: (padDigits e f ++ rest)) =
      (let ds := (padDigits e f ++ rest).takeWhile Char.isDigit
       if ds = [] then none
       else finishNumExp neg q (digitsVal ds) ds.length true
         ((padDigits e f ++ rest).dropWhile Char.isDigit)) := rfl
  rw [harm]
  simp only [htake, hdrop, if_neg hne]
  rw [finishNumExp_stop neg q (digitsVal (padDigits e f)) (padDigits e f).length true rest
    hstop]
  rw [digitsVal_padDigits e f hf, padDigits_length e f]
  simp only [mkNum, if_pos rfl]
  have hs : ¬((e : Int) - 0 ≤ 0) := by omega
  simp only [hs, if_neg hs]
  norm_num

/-- The head of `charsOfNat n` is a digit (in particular not `-`). -/
theorem charsOfNat_cons (n : Nat) :
    ∃ c cs, charsOfNat n = c :: cs ∧ c.isDigit = true := by
  by_cases h0 : n = 0
  · subst h0
    exact ⟨'0', [], rfl, by decide⟩
  · obtain ⟨c, cs, hcons, -, hd⟩ := charsOfNat_head n h0
    exact ⟨c, cs, hcons, hd⟩

theorem parseNum_encodeNum (n : JNum) (rest : List Char) (hc : canonNum n = true)
    (hstop : numStop rest = true) :
    parseNum (encodeNum n ++ rest) = some (n, rest) := by
  cases n with
  | intg i =>
    rw [encodeNum, charsOfInt]
    by_cases hneg : i < 0
    · rw [if_pos hneg]
      show parseNum ('-' :: (charsOfNat i.natAbs ++ rest)) = _
      rw [show parseNum ('-' :: (charsOfNat i.natAbs ++ rest)) =
          parseNumCore true (charsOfNat i.natAbs ++ rest) from rfl,
        parseNumCore_intg true i.natAbs rest hstop]
      have hni : -(i.natAbs : Int) = i := by omega
      rw [hni]
      simp
    · rw [if_neg hneg]
      obtain ⟨c, cs, hcons, hd⟩ := charsOfNat_cons i.natAbs
      rw [hcons]
      have hcm : c ≠ '-' := by
        intro h
        rw [h] at hd
        exact absurd hd (by decide)
      simp only [List.cons_append]
      rw [show parseNum (c :: (cs ++ rest)) = parseNumCore false (c :: (cs ++ rest)) from by
        simp only [parseNum]
        split
        · next heq =>
          rw [List.cons.injEq] at heq
          exact absurd heq.1 hcm
        · rfl]
      rw [show (c :: (cs ++ rest) : List Char) = charsOfNat i.natAbs ++ rest from by
        rw [hcons]; rfl]
      rw [parseNumCore_intg false i.natAbs rest hstop]
      have hni : (i.natAbs : Int) = i := by omega
      rw [hni]
      simp
  | frac m e =>
    have he : 1 ≤ e := by simpa [canonNum] using hc
    have hsplit : encodeNum (.frac m e) ++ rest =
        (if m < 0 then ['-'] else []) ++
          (charsOfNat (m.natAbs / 10 ^ e) ++ '.' :: (padDigits e (m.natAbs % 10 ^ e) ++ rest)) := by
      rw [encodeNum]
      simp [List.append_assoc]
    rw [hsplit]
    have hf : m.natAbs % 10 ^ e < 10 ^ e := Nat.mod_lt _ (by positivity)
    have hrebuild : m.natAbs / 10 ^ e * 10 ^ e + m.natAbs % 10 ^ e = m.natAbs := by
      rw [Nat.mul_comm]
      exact Nat.div_add_mod _ _
    by_cases hneg : m < 0
    · rw [if_pos hneg]
      rw [List.singleton_append]
      rw [show ∀ l, parseNum ('-' :: l) = parseNumCore true l from fun l => rfl]
      rw [parseNumCore_frac true _ e _ rest he hf hstop, hrebuild]
      have hnm : -(m.natAbs : Int) = m := by omega
      rw [hnm]
      simp
    · rw [if_neg hneg]
      simp only [List.nil_append]
      obtain ⟨c, cs, hcons, hd⟩ := charsOfNat_cons (m.natAbs / 10 ^ e)
      have hcm : c ≠ '-' := by
        intro h
        rw [h] at hd
        exact absurd hd (by decide)
      rw [hcons]
      simp only [List.cons_append]
      rw [show parseNum (c :: (cs ++ '.' :: (padDigits e (m.natAbs % 10 ^ e) ++ rest))) =
          parseNumCore false (c :: (cs ++ '.' :: (padDigits e (m.natAbs % 10 ^ e) ++ rest)))
          from by
        simp only [parseNum]
        split
        · next heq =>
          rw [List.cons.injEq] at heq
          exact absurd heq.1 hcm
        · rfl]
      rw [show (c :: (cs ++ '.' :: (padDigits e (m.natAbs % 10 ^ e) ++ rest)) : List Char) =
          charsOfNat (m.natAbs / 10 ^ e) ++ '.' :: (padDigits e (m.natAbs % 10 ^ e) ++ rest)
          from by rw [hcons]; rfl]
      rw [parseNumCore_frac false _ e _ rest he hf hstop, hrebuild]
      have hnm : (m.natAbs : Int) = m := by omega
      rw [hnm]
      simp

/-! ## String encoding round-trip lemmas (claim C4) -/

theorem hexVal_digitChar : ∀ d : Nat, d < 16 → hexVal (Nat.digitChar d) = some d := by
  decide

set_option maxHeartbeats 2000000 in
theorem parseStringBody_escape (c : Char) (tail : List Char) :
    parseStringBody (escapeChar c ++ tail) =
      (parseStringBody tail).map (fun p => (c :: p.1, p.2)) := by
  by_cases h1 : c = '"'
  · subst h1
    rfl
  by_cases h2 : c = '\\'
  · subst h2
    rfl
  by_cases h3 : 0x20 ≤ c.toNat
  · rw [escapeChar, if_neg h1, if_neg h2, if_pos h3]
    show parseStringBody (c :: tail) = _
    rw [parseStringBody.eq_def]
    split
    · next heq => exact List.noConfusion heq
    · next heq =>
      rw [List.cons.injEq] at heq
      exact absurd heq.1 h1
    · next heq =>
      rw [List.cons.injEq] at heq
      exact absurd heq.1 h2
    · next c2 r2 hne1 hne2 hne3 heq =>
      rw [List.cons.injEq] at heq
      obtain ⟨rfl, rfl⟩ := heq
      rw [if_pos h3]
  · have hlt : c.toNat < 32 := by omega
    obtain ⟨k, hk, rfl⟩ : ∃ k, k < 32 ∧ c = Char.ofNat k :=
      ⟨c.toNat, hlt, (Char.ofNat_toNat c).symm⟩
    interval_cases k <;> rfl

theorem parseStringBody_encode (cs : List Char) (rest : List Char) :
    parseStringBody ((cs.map escapeChar).flatten ++ '"' :: rest) = some (cs, rest) := by
  induction cs with
  | nil => simp [parseStringBody]
  | cons c cs ih =>
    simp only [List.map_cons, List.flatten_cons, List.append_assoc]
    rw [parseStringBody_escape c _, ih]
    rfl

/-! ## Sorted object maps (claim C4) -/

theorem ltChars_irrefl : ∀ l : List Char, ltChars l l = false := by
  intro l
  induction l with
  | nil => rfl
  | cons c cs ih => simp [ltChars, ih]

theorem ltChars_asymm : ∀ a b : List Char, ltChars a b = true → ltChars b a = false := by
  intro a
  induction a with
  | nil =>
    intro b h
    cases b with
    | nil => simp [ltChars] at h
    | cons d ds => simp [ltChars]
  | cons c cs ih =>
    intro b h
    cases b with
    | nil => simp [ltChars] at h
    | cons d ds =>
      rw [ltChars] at h ⊢
      by_cases h1 : c.toNat < d.toNat
      · have h2 : ¬(d.toNat < c.toNat) := by omega
        simp [h1, h2]
      · by_cases h2 : d.toNat < c.toNat
        · rw [if_neg h1, if_pos h2] at h
          exact absurd h (by simp)
        · rw [if_neg h1, if_neg h2] at h
          simp [h1, h2, ih ds h]

theorem ltChars_trans :
    ∀ a b c : List Char, ltChars a b = true → ltChars b c = true → ltChars a c = true := by
  intro a
  induction a with
  | nil =>
    intro b c hab hbc
    cases b with
    | nil => simp [ltChars] at hab
    | cons y ys =>
      cases c with
      | nil => simp [ltChars] at hbc
      | cons z zs => simp [ltChars]
  | cons x xs ih =>
    intro b c hab hbc
    cases b with
    | nil => simp [ltChars] at hab
    | cons y ys =>
      cases c with
      | nil => simp [ltChars] at hbc
      | cons z zs =>
        rw [ltChars] at hab hbc ⊢
        by_cases h1 : x.toNat < y.toNat
        · by_cases h2 : y.toNat < z.toNat
          · simp [show x.toNat < z.toNat by omega]
          · by_cases h3 : z.toNat < y.toNat
            · rw [if_neg h2, if_pos h3] at hbc
              exact absurd hbc (by simp)
            · simp [show x.toNat < z.toNat by omega]
        · by_cases h4 : y.toNat < x.toNat
          · rw [if_neg h1, if_pos h4] at hab
            exact absurd hab (by simp)
          · rw [if_neg h1, if_neg h4] at hab
            by_cases h2 : y.toNat < z.toNat
            · simp [show x.toNat < z.toNat by omega]
            · by_cases h3 : z.toNat < y.toNat
              · rw [if_neg h2, if_pos h3] at hbc
                exact absurd hbc (by simp)
              · rw [if_neg h2, if_neg h3] at hbc
                have hxz1 : ¬(x.toNat < z.toNat) := by omega
                have hxz2 : ¬(z.toNat < x.toNat) := by omega
                simp [hxz1, hxz2, ih ys zs hab hbc]

theorem ltStr_irrefl (s : String) : ltStr s s = false := ltChars_irrefl s.data

theorem ltStr_asymm {a b : String} (h : ltStr a b = true) : ltStr b a = false :=
  ltChars_asymm a.data b.data h

theorem ltStr_trans {a b c : String} (h1 : ltStr a b = true) (h2 : ltStr b c = true) :
    ltStr a c = true :=
  ltChars_trans a.data b.data c.data h1 h2

theorem insertKey_all_lt (l : List (String × Json)) (k : String) (v : Json)
    (h : ∀ p ∈ l, ltStr p.1 k = true) : insertKey l k v = l ++ [(k, v)] := by
  induction l with
  | nil => simp [insertKey]
  | cons q rest ih =>
    have hq : ltStr q.1 k = true := h q (by simp)
    have h1 : ¬(ltStr k q.1 = true) := by
      rw [ltStr_asymm hq]
      simp
    have h2 : k ≠ q.1 := by
      intro heq
      rw [heq] at hq
      rw [ltStr_irrefl] at hq
      exact Bool.noConfusion hq
    obtain ⟨k', v'⟩ := q
    simp only [insertKey, if_neg h1, if_neg h2]
    rw [ih (fun p hp => h p (by simp [hp]))]
    simp

theorem canonObj_cons_val {k : String} {v : Json} {xs : List (String × Json)}
    (h : Json.CanonicalObj ((k, v) :: xs) = true) : Json.Canonical v = true := by
  cases xs with
  | nil => simpa [Json.CanonicalObj] using h
  | cons q xs' =>
    rw [Json.CanonicalObj] at h
    simp at h
    exact h.1.1

theorem canonObj_cons_tail {k : String} {v : Json} {xs : List (String × Json)}
    (h : Json.CanonicalObj ((k, v) :: xs) = true) : Json.CanonicalObj xs = true := by
  cases xs with
  | nil => rfl
  | cons q xs' =>
    rw [Json.CanonicalObj] at h
    simp at h
    exact h.2

theorem canonObj_cons_lt {k : String} {v : Json} {q : String × Json}
    {xs : List (String × Json)}
    (h : Json.CanonicalObj ((k, v) :: q :: xs) = true) : ltStr k q.1 = true := by
  rw [Json.CanonicalObj] at h
  simp at h
  exact h.1.2

theorem canonObj_all_lt :
    ∀ (xs : List (String × Json)) (k : String) (v : Json),
      Json.CanonicalObj ((k, v) :: xs) = true → ∀ q ∈ xs, ltStr k q.1 = true := by
  intro xs
  induction xs with
  | nil => simp
  | cons q' xs' ih =>
    intro k v h q hq
    have hlt := canonObj_cons_lt h
    have htail := canonObj_cons_tail h
    rcases List.mem_cons.mp hq with rfl | hmem
    · exact hlt
    · obtain ⟨q1, v1⟩ := q'
      exact ltStr_trans hlt (ih q1 v1 htail q hmem)

theorem canonObj_cross :
    ∀ (acc : List (String × Json)) (q : String × Json) (l' : List (String × Json)),
      Json.CanonicalObj (acc ++ q :: l') = true → ∀ p ∈ acc, ltStr p.1 q.1 = true := by
  intro acc
  induction acc with
  | nil => simp
  | cons a acc' ih =>
    intro q l' h p hp
    obtain ⟨ak, av⟩ := a
    have h' : Json.CanonicalObj ((ak, av) :: (acc' ++ q :: l')) = true := by
      simpa using h
    rcases List.mem_cons.mp hp with rfl | hmem
    · exact canonObj_all_lt (acc' ++ q :: l') ak av h' q (by simp)
    · exact ih q l' (canonObj_cons_tail h') p hmem

theorem foldl_insertKey_sorted :
    ∀ (l acc : List (String × Json)), Json.CanonicalObj (acc ++ l) = true →
      List.foldl (fun m p => insertKey m p.1 p.2) acc l = acc ++ l := by
  intro l
  induction l with
  | nil =>
    intro acc h
    simp
  | cons q l' ih =>
    intro acc h
    rw [List.foldl_cons]
    have hins : insertKey acc q.1 q.2 = acc ++ [q] := by
      rw [insertKey_all_lt acc q.1 q.2 (canonObj_cross acc q l' h)]
    rw [hins, ih (acc ++ [q]) (by simpa [List.append_assoc] using h)]
    simp

theorem objInsertAll_id (l : List (String × Json)) (h : Json.CanonicalObj l = true) :
    objInsertAll l = l := by
  have := foldl_insertKey_sorted l [] (by simpa using h)
  simpa [objInsertAll] using this

theorem canonList_mem {l : List Json} (h : Json.CanonicalList l = true) :
    ∀ x ∈ l, Json.Canonical x = true := by
  induction l with
  | nil => simp
  | cons y ys ih =>
    rw [Json.CanonicalList] at h
    simp at h
    intro x hx
    rcases List.mem_cons.mp hx with rfl | hmem
    · exact h.1
    · exact ih h.2 x hmem

theorem canonObj_mem_val {l : List (String × Json)} (h : Json.CanonicalObj l = true) :
    ∀ p ∈ l, Json.Canonical p.2 = true := by
  induction l with
  | nil => simp
  | cons q qs ih =>
    intro p hp
    obtain ⟨qk, qv⟩ := q
    rcases List.mem_cons.mp hp with rfl | hmem
    · exact canonObj_cons_val h
    · exact ih (canonObj_cons_tail h) p hmem

/-! ## Parser/encoder round trip (claim C4) -/

theorem jfuel_pos : ∀ v : Json, 1 ≤ jfuel v := by
  intro v
  cases v <;> simp [jfuel]

theorem numHead_facts (c : Char) (h : c = '-' ∨ c.isDigit = true) :
    isWs c = false ∧ c ≠ 'n' ∧ c ≠ 't' ∧ c ≠ 'f' ∧ c ≠ '"' ∧ c ≠ '[' ∧ c ≠ '{' ∧
      c ≠ ']' ∧ c ≠ '}' := by
  rcases h with rfl | hd
  · refine ⟨by decide, by decide, by decide, by decide, by decide, by decide, by decide,
      by decide, by decide⟩
  · have hws : isWs c = false := by
      cases hcw : isWs c
      · rfl
      · exfalso
        simp [isWs] at hcw
        rcases hcw with ((rfl | rfl) | rfl) | rfl <;> exact absurd hd (by decide)
    refine ⟨hws, ?_, ?_, ?_, ?_, ?_, ?_, ?_, ?_⟩ <;>
      (intro heq; rw [heq] at hd; exact absurd hd (by decide))

theorem encodeNum_cons (n : JNum) :
    ∃ c t, encodeNum n = c :: t ∧ (c = '-' ∨ c.isDigit = true) := by
  cases n with
  | intg i =>
    rw [encodeNum, charsOfInt]
    by_cases h : i < 0
    · rw [if_pos h]
      exact ⟨'-', _, rfl, Or.inl rfl⟩
    · rw [if_neg h]
      obtain ⟨c, cs, hcons, hd⟩ := charsOfNat_cons i.natAbs
      exact ⟨c, cs, hcons, Or.inr hd⟩
  | frac m e =>
    rw [encodeNum]
    by_cases h : m < 0
    · rw [if_pos h]
      refine ⟨'-', charsOfNat (m.natAbs / 10 ^ e) ++ '.' :: padDigits e (m.natAbs % 10 ^ e),
        ?_, Or.inl rfl⟩
      simp
    · rw [if_neg h]
      obtain ⟨c, cs, hcons, hd⟩ := charsOfNat_cons (m.natAbs / 10 ^ e)
      refine ⟨c, cs ++ '.' :: padDigits e (m.natAbs % 10 ^ e), ?_, Or.inr hd⟩
      rw [List.nil_append, hcons]
      simp

theorem encodeVal_head (v : Json) :
    ∃ c t, encodeVal v = c :: t ∧ isWs c = false ∧ c ≠ ']' ∧ c ≠ '}' ∧ c ≠ ',' := by
  cases v with
  | null => exact ⟨'n', _, rfl, by decide, by decide, by decide, by decide⟩
  | bool b =>
    cases b
    · exact ⟨'f', _, rfl, by decide, by decide, by decide, by decide⟩
    · exact ⟨'t', _, rfl, by decide, by decide, by decide, by decide⟩
  | num n =>
    obtain ⟨c, t, hcons, hh⟩ := encodeNum_cons n
    have hf := numHead_facts c hh
    refine ⟨c, t, hcons, hf.1, hf.2.2.2.2.2.2.2.1, hf.2.2.2.2.2.2.2.2, ?_⟩
    rcases hh with rfl | hd
    · decide
    · intro heq
      rw [heq] at hd
      exact absurd hd (by decide)
  | str s =>
    refine ⟨'"', (s.data.map escapeChar).flatten ++ ['"'], ?_, by decide, by decide,
      by decide, by decide⟩
    rw [show encodeVal (.str s) = encodeString s from rfl, encodeString]
    simp
  | arr l =>
    refine ⟨'[', encodeArrElems l ++ [']'], ?_, by decide, by decide, by decide, by decide⟩
    rw [show encodeVal (.arr l) = '[' :: encodeArrElems l ++ [']'] from rfl]
    simp
  | obj l =>
    refine ⟨'{', encodeObjElems l ++ ['}'], ?_, by decide, by decide, by decide, by decide⟩
    rw [show encodeVal (.obj l) = '{' :: encodeObjElems l ++ ['}'] from rfl]
    simp

theorem encodeArrElems_cons (x : Json) (xs : List Json) :
    ∃ t, encodeArrElems (x :: xs) = encodeVal x ++ t := by
  cases xs with
  | nil => exact ⟨[], by simp [encodeArrElems]⟩
  | cons y ys => exact ⟨',' :: encodeArrElems (y :: ys), rfl⟩

theorem parseVal_arr_branch (fuel : Nat) (c : Char) (X : List Char)
    (hws : isWs c = false) (hrb : c ≠ ']') :
    parseVal (fuel + 1) ('[' :: c :: X) =
      (match parseArrItems fuel (c :: X) with
       | some (vs, r3) => some (Json.arr vs, r3)
       | none => none) := by
  rw [parseVal]
  rw [show skipWs ('[' :: c :: X) = '[' :: c :: X from rfl]
  show (match skipWs (c :: X) with
        | ']' :: r2 => some (Json.arr [], r2)
        | r2 =>
          match parseArrItems fuel r2 with
          | some (vs, r3) => some (Json.arr vs, r3)
          | none => none) = _
  rw [show skipWs (c :: X) = c :: X from by simp [skipWs, List.dropWhile_cons, hws]]
  split
  · next r2 heq =>
    rw [List.cons.injEq] at heq
    exact absurd heq.1 hrb
  · rfl

theorem parseVal_obj_branch (fuel : Nat) (c : Char) (X : List Char)
    (hws : isWs c = false) (hrb : c ≠ '}') :
    parseVal (fuel + 1) ('{' :: c :: X) =
      (match parseObjItems fuel (c :: X) with
       | some (qs, r3) => some (Json.obj (objInsertAll qs), r3)
       | none => none) := by
  rw [parseVal]
  rw [show skipWs ('{' :: c :: X) = '{' :: c :: X from rfl]
  show (match skipWs (c :: X) with
        | '}' :: r2 => some (Json.obj [], r2)
        | r2 =>
          match parseObjItems fuel r2 with
          | some (qs, r3) => some (Json.obj (objInsertAll qs), r3)
          | none => none) = _
  rw [show skipWs (c :: X) = c :: X from by simp [skipWs, List.dropWhile_cons, hws]]
  split
  · next r2 heq =>
    rw [List.cons.injEq] at heq
    exact absurd heq.1 hrb
  · rfl

theorem parseObjItems_entry (fuel : Nat) (k : String) (X : List Char) :
    parseObjItems (fuel + 1) ('"' :: ((k.data.map escapeChar).flatten ++ '"' :: X)) =
      (match skipWs X with
       | ':' :: r3 =>
         match parseVal fuel r3 with
         | some (v, r4) =>
           match skipWs r4 with
           | ',' :: r5 =>
             match parseObjItems fuel r5 with
             | some (qs, r6) => some ((k, v) :: qs, r6)
             | none => none
           | '}' :: r5 => some ([(k, v)], r5)
           | _ => none
         | none => none
       | _ => none) := by
  rw [parseObjItems]
  rw [show skipWs ('"' :: ((k.data.map escapeChar).flatten ++ '"' :: X)) =
      '"' :: ((k.data.map escapeChar).flatten ++ '"' :: X) from rfl]
  show (match parseStringBody ((k.data.map escapeChar).flatten ++ '"' :: X) with
        | some (kcs, r2) =>
          match skipWs r2 with
          | ':' :: r3 =>
            match parseVal fuel r3 with
            | some (v, r4) =>
              match skipWs r4 with
              | ',' :: r5 =>
                match parseObjItems fuel r5 with
                | some (qs, r6) => some ((String.mk kcs, v) :: qs, r6)
                | none => none
              | '}' :: r5 => some ([(String.mk kcs, v)], r5)
              | _ => none
            | none => none
          | _ => none
        | none => none) = _
  rw [parseStringBody_encode]

theorem encodeObjElems_cons_shape (k : String) (v : Json) (ps : List (String × Json)) :
    ∃ t, encodeObjElems ((k, v) :: ps) = encodeString k ++ ':' :: (encodeVal v ++ t) ∧
      ((ps = [] ∧ t = []) ∨
        (∃ q qs, ps = q :: qs ∧ t = ',' :: encodeObjElems (q :: qs))) := by
  cases ps with
  | nil =>
    refine ⟨[], ?_, Or.inl ⟨rfl, rfl⟩⟩
    rw [show encodeObjElems [(k, v)] = encodeString k ++ ':' :: encodeVal v from rfl]
    simp
  | cons q qs =>
    refine ⟨',' :: encodeObjElems (q :: qs), ?_, Or.inr ⟨q, qs, rfl, rfl⟩⟩
    rw [show encodeObjElems ((k, v) :: q :: qs) =
      encodeString k ++ ':' :: encodeVal v ++ ',' :: encodeObjElems (q :: qs) from rfl]
    simp

theorem parseRound : ∀ fuel : Nat,
    (∀ (v : Json) (rest : List Char), Json.Canonical v = true → jfuel v ≤ fuel →
      numStop rest = true → parseVal fuel (encodeVal v ++ rest) = some (v, rest)) ∧
    (∀ (l : List Json) (rest : List Char), l ≠ [] → Json.CanonicalList l = true →
      jfuelItems l ≤ fuel →
      parseArrItems fuel (encodeArrElems l ++ ']' :: rest) = some (l, rest)) ∧
    (∀ (ps : List (String × Json)) (rest : List Char), ps ≠ [] →
      Json.CanonicalObj ps = true → jfuelEntries ps ≤ fuel →
      parseObjItems fuel (encodeObjElems ps ++ '}' :: rest) = some (ps, rest)) := by
  intro fuel
  induction fuel with
  | zero =>
    refine ⟨fun v rest _ hfuel _ => ?_, fun l rest hne _ hfuel => ?_,
      fun ps rest hne _ hfuel => ?_⟩
    · exact absurd hfuel (by have := jfuel_pos v; omega)
    · cases l with
      | nil => exact absurd rfl hne
      | cons x xs =>
        rw [jfuelItems] at hfuel
        omega
    · cases ps with
      | nil => exact absurd rfl hne
      | cons p ps' =>
        rw [jfuelEntries] at hfuel
        omega
  | succ fuel ih =>
    obtain ⟨ihV, ihA, ihO⟩ := ih
    refine ⟨fun v rest hcan hfuel hstop => ?_, fun l rest hne hcl hfl => ?_,
      fun ps rest hne hco hfo => ?_⟩
    · -- values
      cases v with
      | null => rfl
      | bool b => cases b <;> rfl
      | num n =>
        have hcn : canonNum n = true := hcan
        obtain ⟨c, t, hcons, hhead⟩ := encodeNum_cons n
        have hf := numHead_facts c hhead
        rw [show encodeVal (.num n) = encodeNum n from rfl, hcons, List.cons_append,
          parseVal]
        rw [show skipWs (c :: (t ++ rest)) = c :: (t ++ rest) from by
          simp [skipWs, List.dropWhile_cons, hf.1]]
        simp only [if_neg hf.2.1, if_neg hf.2.2.1, if_neg hf.2.2.2.1, if_neg hf.2.2.2.2.1,
          if_neg hf.2.2.2.2.2.1, if_neg hf.2.2.2.2.2.2.1]
        rw [show (c :: (t ++ rest) : List Char) = encodeNum n ++ rest from by
          rw [hcons]
          rfl]
        rw [parseNum_encodeNum n rest hcn hstop]
      | str s =>
        rw [show encodeVal (.str s) ++ rest =
            '"' :: ((s.data.map escapeChar).flatten ++ '"' :: rest) from by
          rw [show encodeVal (.str s) = encodeString s from rfl, encodeString]
          simp]
        rw [parseVal]
        rw [show skipWs ('"' :: ((s.data.map escapeChar).flatten ++ '"' :: rest)) =
            '"' :: ((s.data.map escapeChar).flatten ++ '"' :: rest) from rfl]
        show (match parseStringBody ((s.data.map escapeChar).flatten ++ '"' :: rest) with
              | some (cs, r2) => some (Json.str (String.mk cs), r2)
              | none => none) = some (.str s, rest)
        rw [parseStringBody_encode]
      | arr l =>
        cases l with
        | nil => rfl
        | cons x xs =>
          have hcl2 : Json.CanonicalList (x :: xs) = true := hcan
          have hfl2 : jfuelItems (x :: xs) ≤ fuel := by
            have hj : jfuel (.arr (x :: xs)) = 1 + jfuelItems (x :: xs) := rfl
            omega
          obtain ⟨c, t, hx, hws, hrb, hcb, hcm⟩ := encodeVal_head x
          obtain ⟨t2, ht2⟩ := encodeArrElems_cons x xs
          have hshape : encodeArrElems (x :: xs) ++ ']' :: rest =
              c :: (t ++ (t2 ++ ']' :: rest)) := by
            rw [ht2, hx]
            simp
          rw [show encodeVal (.arr (x :: xs)) ++ rest =
              '[' :: (encodeArrElems (x :: xs) ++ ']' :: rest) from by
            rw [show encodeVal (.arr (x :: xs)) =
              '[' :: encodeArrElems (x :: xs) ++ [']'] from rfl]
            simp]
          rw [hshape, parseVal_arr_branch fuel c (t ++ (t2 ++ ']' :: rest)) hws hrb,
            ← hshape, ihA (x :: xs) rest (by simp) hcl2 hfl2]
      | obj l =>
        cases l with
        | nil => rfl
        | cons p ps =>
          have hco2 : Json.CanonicalObj (p :: ps) = true := hcan
          have hfo2 : jfuelEntries (p :: ps) ≤ fuel := by
            have hj : jfuel (.obj (p :: ps)) = 1 + jfuelEntries (p :: ps) := rfl
            omega
          obtain ⟨pk, pv⟩ := p
          obtain ⟨t2, ht2, -⟩ := encodeObjElems_cons_shape pk pv ps
          have hshape : encodeObjElems ((pk, pv) :: ps) ++ '}' :: rest =
              '"' :: (((pk.data.map escapeChar).flatten ++ ['"']) ++
                (':' :: (encodeVal pv ++ t2) ++ '}' :: rest)) := by
            rw [ht2, encodeString]
            simp
          rw [show encodeVal (.obj ((pk, pv) :: ps)) ++ rest =
              '{' :: (encodeObjElems ((pk, pv) :: ps) ++ '}' :: rest) from by
            rw [show encodeVal (.obj ((pk, pv) :: ps)) =
              '{' :: encodeObjElems ((pk, pv) :: ps) ++ ['}'] from rfl]
            simp]
          rw [hshape, parseVal_obj_branch fuel '"' _ (by decide) (by decide),
            ← hshape, ihO ((pk, pv) :: ps) rest (by simp) hco2 hfo2]
          show some (Json.obj (objInsertAll ((pk, pv) :: ps)), rest) =
            some (Json.obj ((pk, pv) :: ps), rest)
          rw [objInsertAll_id ((pk, pv) :: ps) hco2]
    · -- array items
      cases l with
      | nil => exact absurd rfl hne
      | cons x xs =>
        have hx2 : Json.Canonical x = true ∧ Json.CanonicalList xs = true := by
          rw [Json.CanonicalList] at hcl
          simpa using hcl
        have hpx := jfuel_pos x
        have hfx : jfuel x ≤ fuel := by
          rw [jfuelItems] at hfl
          omega
        rw [parseArrItems]
        cases xs with
        | nil =>
          rw [show encodeArrElems [x] ++ ']' :: rest = encodeVal x ++ ']' :: rest from rfl]
          rw [ihV x (']' :: rest) hx2.1 hfx (by rfl)]
          rfl
        | cons y ys =>
          rw [show encodeArrElems (x :: y :: ys) ++ ']' :: rest =
              encodeVal x ++ (',' :: (encodeArrElems (y :: ys) ++ ']' :: rest)) from by
            rw [show encodeArrElems (x :: y :: ys) =
              encodeVal x ++ ',' :: encodeArrElems (y :: ys) from rfl]
            simp]
          rw [ihV x (',' :: (encodeArrElems (y :: ys) ++ ']' :: rest)) hx2.1 hfx (by rfl)]
          show (match parseArrItems fuel (encodeArrElems (y :: ys) ++ ']' :: rest) with
                | some (vs, r3) => some (x :: vs, r3)
                | none => none) = some (x :: y :: ys, rest)
          rw [ihA (y :: ys) rest (by simp) hx2.2 (by rw [jfuelItems] at hfl; omega)]
    · -- object entries
      cases ps with
      | nil => exact absurd rfl hne
      | cons p ps'  =>
        obtain ⟨k, v⟩ := p
        have hcv : Json.Canonical v = true := canonObj_cons_val hco
        have hcops : Json.CanonicalObj ps' = true := canonObj_cons_tail hco
        have hpv := jfuel_pos v
        have hfv : jfuel v ≤ fuel := by
          rw [jfuelEntries] at hfo
          simp at hfo
          omega
        obtain ⟨t2, ht2, hsplit⟩ := encodeObjElems_cons_shape k v ps'
        have hshape : encodeObjElems ((k, v) :: ps') ++ '}' :: rest =
            '"' :: ((k.data.map escapeChar).flatten ++ '"' ::
              (':' :: (encodeVal v ++ (t2 ++ '}' :: rest)))) := by
          rw [ht2, encodeString]
          simp
        rw [hshape, parseObjItems_entry fuel k
          (':' :: (encodeVal v ++ (t2 ++ '}' :: rest)))]
        rw [show skipWs (':' :: (encodeVal v ++ (t2 ++ '}' :: rest))) =
            ':' :: (encodeVal v ++ (t2 ++ '}' :: rest)) from rfl]
        show (match parseVal fuel (encodeVal v ++ (t2 ++ '}' :: rest)) with
              | some (w, r4) =>
                match skipWs r4 with
                | ',' :: r5 =>
                  match parseObjItems fuel r5 with
                  | some (qs, r6) => some ((k, w) :: qs, r6)
                  | none => none
                | '}' :: r5 => some ([(k, w)], r5)
                | _ => none
              | none => none) = some ((k, v) :: ps', rest)
        rcases hsplit with ⟨rfl, rfl⟩ | ⟨q, qs, hps, hts⟩
        · rw [show ([] ++ '}' :: rest : List Char) = '}' :: rest from rfl]
          rw [ihV v ('}' :: rest) hcv hfv (by rfl)]
          rfl
        · subst hps
          subst hts
          rw [show (',' :: encodeObjElems (q :: qs) ++ '}' :: rest : List Char) =
              ',' :: (encodeObjElems (q :: qs) ++ '}' :: rest) from rfl]
          rw [ihV v (',' :: (encodeObjElems (q :: qs) ++ '}' :: rest)) hcv hfv (by rfl)]
          show (match parseObjItems fuel (encodeObjElems (q :: qs) ++ '}' :: rest) with
                | some (qs2, r6) => some ((k, v) :: qs2, r6)
                | none => none) = some ((k, v) :: q :: qs, rest)
          rw [ihO (q :: qs) rest (by simp) hcops
            (by rw [jfuelEntries] at hfo; simp at hfo; omega)]

theorem jfuelItems_le (l : List Json) (h : ∀ x ∈ l, jfuel x ≤ (encodeVal x).length) :
    jfuelItems l ≤ (encodeArrElems l).length + 1 := by
  induction l with
  | nil => simp [jfuelItems]
  | cons x xs ih =>
    cases xs with
    | nil =>
      have hx := h x (by simp)
      rw [show encodeArrElems [x] = encodeVal x from rfl]
      rw [jfuelItems, jfuelItems]
      omega
    | cons y ys =>
      have hx := h x (by simp)
      have hys := ih (fun z hz => h z (by simp [hz]))
      rw [show encodeArrElems (x :: y :: ys) =
        encodeVal x ++ ',' :: encodeArrElems (y :: ys) from rfl]
      rw [jfuelItems]
      simp only [List.length_append, List.length_cons]
      omega

theorem jfuelEntries_le (l : List (String × Json))
    (h : ∀ p ∈ l, jfuel p.2 ≤ (encodeVal p.2).length) :
    jfuelEntries l ≤ (encodeObjElems l).length + 1 := by
  induction l with
  | nil => simp [jfuelEntries]
  | cons p ps ih =>
    obtain ⟨k, v⟩ := p
    cases ps with
    | nil =>
      have hv := h (k, v) (by simp)
      rw [show encodeObjElems [(k, v)] = encodeString k ++ ':' :: encodeVal v from rfl]
      rw [jfuelEntries, jfuelEntries]
      simp only [List.length_append, List.length_cons] at hv ⊢
      omega
    | cons q qs =>
      have hv := h (k, v) (by simp)
      have hqs := ih (fun z hz => h z (by simp [hz]))
      rw [show encodeObjElems ((k, v) :: q :: qs) =
        encodeString k ++ ':' :: encodeVal v ++ ',' :: encodeObjElems (q :: qs) from rfl]
      rw [jfuelEntries]
      simp only [List.length_append, List.length_cons] at hv ⊢
      omega

theorem jfuel_le (v : Json) : jfuel v ≤ (encodeVal v).length := by
  induction v using Json.ind with
  | hnull => decide
  | hbool b => cases b <;> decide
  | hnum n =>
    obtain ⟨c, t, hcons, -⟩ := encodeNum_cons n
    rw [show encodeVal (.num n) = encodeNum n from rfl, hcons,
      show jfuel (.num n) = 1 from rfl]
    simp
  | hstr s =>
    rw [show encodeVal (.str s) = encodeString s from rfl, encodeString,
      show jfuel (.str s) = 1 from rfl]
    simp
  | harr l ihl =>
    have hitems := jfuelItems_le l ihl
    rw [show encodeVal (.arr l) = '[' :: encodeArrElems l ++ [']'] from rfl,
      show jfuel (.arr l) = 1 + jfuelItems l from rfl]
    simp only [List.length_append, List.length_cons, List.length_singleton]
    omega
  | hobj l ihl =>
    have hentries := jfuelEntries_le l ihl
    rw [show encodeVal (.obj l) = '{' :: encodeObjElems l ++ ['}'] from rfl,
      show jfuel (.obj l) = 1 + jfuelEntries l from rfl]
    simp only [List.length_append, List.length_cons, List.length_singleton]
    omega

theorem parseJsonChars_encode (v : Json) (h : Json.Canonical v = true) :
    parseJsonChars (encodeVal v) = some v := by
  have hfl : jfuel v ≤ (encodeVal v).length + 1 := by
    have := jfuel_le v
    omega
  have hrt := (parseRound ((encodeVal v).length + 1)).1 v [] h hfl (by rfl)
  rw [show encodeVal v ++ ([] : List Char) = encodeVal v from by simp] at hrt
  rw [parseJsonChars, hrt]
  rfl


/-- **C4.** Value coercion (`json_to_influxdb`) is total on every non-null
JSON value and maps by kind: booleans become `Boolean`; numbers become
`Float` regardless of integer or fractional literal (both `5` and `5.0`
yield `Float 5`); strings become `String` verbatim (`"5"` yields
`String "5"`); arrays and objects become `String` holding their canonical
JSON re-encoding, and parsing that re-encoding reproduces the original
value ( `[1,2,3]` yields `String "[1,2,3]"` ). -/
theorem C4_value_coercion :
    (∀ v : Json, v ≠ .null → ∃ t, json_to_influxdb v = .ok t) ∧
    (∀ b, json_to_influxdb (.bool b) = .ok (.Boolean b)) ∧
    (∀ n, json_to_influxdb (.num n) = .ok (.Float n.as_f64)) ∧
    (json_to_influxdb (.num (.intg 5)) = .ok (.Float 5) ∧
      json_to_influxdb (.num (.frac 50 1)) = .ok (.Float 5)) ∧
    (∀ s, json_to_influxdb (.str s) = .ok (.String s)) ∧
    json_to_influxdb (.str "5") = .ok (.String "5") ∧
    (∀ a, json_to_influxdb (.arr a) =
      .ok (.String (String.mk (encodeVal (.arr a))))) ∧
    (∀ o, json_to_influxdb (.obj o) =
      .ok (.String (String.mk (encodeVal (.obj o))))) ∧
    json_to_influxdb (.arr [.num (.intg 1), .num (.intg 2), .num (.intg 3)]) =
      .ok (.String "[1,2,3]") ∧
    (∀ v : Json, Json.Canonical v = true → parseJsonChars (encodeVal v) = some v) := by
  refine ⟨?_, fun b => rfl, fun n => rfl, ⟨?_, ?_⟩, fun s => rfl, rfl,
    fun a => rfl, fun o => rfl, by decide, parseJsonChars_encode⟩
  · intro v hv
    cases v with
    | null => exact absurd rfl hv
    | bool b => exact ⟨_, rfl⟩
    | num n => exact ⟨_, rfl⟩
    | str s => exact ⟨_, rfl⟩
    | arr a => exact ⟨_, rfl⟩
    | obj o => exact ⟨_, rfl⟩
  · show Except.ok (DBValue.Float ((5 : Int) : ℚ)) = Except.ok (DBValue.Float 5)
    norm_num
  · show Except.ok (DBValue.Float ((50 : Int) / (10 : ℚ) ^ 1)) =
      Except.ok (DBValue.Float 5)
    norm_num

/-- Concrete instantiation of `C4_value_coercion` at `[1,2,3]`. -/
theorem C4_value_coercion_witness :
    ((Json.arr [.num (.intg 1), .num (.intg 2), .num (.intg 3)]) ≠ Json.null ∧
      ∃ t, json_to_influxdb
        (.arr [.num (.intg 1), .num (.intg 2), .num (.intg 3)]) = .ok t) ∧
    (Json.Canonical (.arr [.num (.intg 1), .num (.intg 2), .num (.intg 3)]) = true ∧
      parseJsonChars
          (encodeVal (.arr [.num (.intg 1), .num (.intg 2), .num (.intg 3)])) =
        some (.arr [.num (.intg 1), .num (.intg 2), .num (.intg 3)])) :=
  ⟨⟨by decide, C4_value_coercion.1 _ (by decide)⟩,
   ⟨by decide, C4_value_coercion.2.2.2.2.2.2.2.2.2 _ (by decide)⟩⟩

end Mqtt2Influx
